import Mathlib

/-!
Verification of the `permissions-gen` tool (Go sources `main.go` and
`json_scan.go`): a shallow embedding of its policy-normalization,
rule-grouping and text-splicing functions, and theorems checking the
natural-language specification's claims against them.

Modelling conventions:
* Go strings are modelled as `List Char` (`Str`); all inputs of interest are
  ASCII, so Go's byte indexing coincides with character indexing.
* Go `nil` slices and empty slices both become `[]` (the one Go function that
  observes the difference, `ensureSlice`, becomes the identity and is kept
  with a comment).
* Go maps used as sets or keyed stores become association lists; insertion
  order of the Go code is irrelevant because the code keeps a separate
  `order` slice, which is modelled directly.
* Fallible Go functions return `Except GoErr`; the error constructors mirror
  the distinct `fmt.Errorf` sites of the source.
-/

namespace PermGen

/-- Go strings, as character lists (ASCII: one byte = one char). -/
abbrev Str := List Char

/-- Coerce a Lean string literal into the `Str` model. -/
def str (s : String) : Str := s.toList

/-- Go `unicode.IsSpace`, restricted to the Latin-1 range (all whitespace the
repository's inputs can contain): space, \t, \n, \v, \f, \r, NEL, NBSP. -/
def isGoSpace (c : Char) : Bool :=
  c = ' ' || c = '\t' || c = '\n' || c = '\x0B' || c = '\x0C' || c = '\r' ||
    c = '\x85' || c = '\xA0'

/-- Go `strings.TrimSpace`: drop leading and trailing whitespace. -/
def trimSpace (l : Str) : Str :=
  ((l.dropWhile isGoSpace).reverse.dropWhile isGoSpace).reverse

/-- `main.go` `appendUnique`: append `item` to `out` unless it is empty or
already recorded in `seen` (a Go `map[string]struct{}`, modelled as a list
whose membership is what matters). -/
def appendUnique (out : List Str) (seen : List Str) (item : Str) :
    List Str × List Str :=
  if item = [] then (out, seen)
  else if item ∈ seen then (out, seen)
  else (out ++ [item], item :: seen)

/-- Run `appendUnique` over a list of items (the repeated Go loop body). -/
def appendUniqueAll (st : List Str × List Str) (items : List Str) :
    List Str × List Str :=
  items.foldl (fun st item => appendUnique st.1 st.2 item) st

/-- `main.go` `normalizeList`: trim each entry, drop empties; when `unique`,
also deduplicate keeping the first occurrence. -/
def normalizeList (values : List Str) (unique : Bool) : List Str :=
  if unique then
    (values.foldl
      (fun st v =>
        let trimmed := trimSpace v
        if trimmed = [] then st else appendUnique st.1 st.2 trimmed)
      ([], [])).1
  else
    values.foldl
      (fun out v =>
        let trimmed := trimSpace v
        if trimmed = [] then out else out ++ [trimmed])
      []

/-- `main.go` `bashSentinel`. -/
def bashSentinel : Str := str "__BASH__"

/-- `main.go` `toBashPatterns`: normalize, then wrap each entry as
`Bash(<entry>:*)` (Go builds the string with `fmt.Sprintf`). -/
def toBashPatterns (values : List Str) : List Str :=
  (normalizeList values false).map (fun v => str "Bash(" ++ v ++ str ":*)")

/-- `main.go` `mergeUnique` (variadic in Go; the one call site passes two
lists). -/
def mergeUnique (lists : List (List Str)) : List Str :=
  (lists.foldl (fun st list => appendUniqueAll st list) ([], [])).1

/-- `main.go` `ensureSlice`: Go turns a nil slice into an empty one; in the
list model both are `[]`, so this is the identity. -/
def ensureSlice (values : List Str) : List Str := values

/-- `main.go` `expandWithBash`: the sentinel-expansion of a permission list
with the derived `Bash(...)` patterns.  (The Go code binds
`normalized`/`bashPatterns` to locals; they are inlined here.) -/
def expandWithBash (values bashValues : List Str) : List Str :=
  if (toBashPatterns (normalizeList bashValues false)).length = 0 then
    ensureSlice (normalizeList values false)
  else if bashSentinel ∈ normalizeList values false then
    ((normalizeList values false).foldl
      (fun st item =>
        if item = bashSentinel then
          appendUniqueAll st (toBashPatterns (normalizeList bashValues false))
        else appendUnique st.1 st.2 item)
      ([], [])).1
  else
    mergeUnique [normalizeList values false,
      toBashPatterns (normalizeList bashValues false)]

/-- `main.go` `containsWildcard`: `strings.ContainsAny(value, "*?")`. -/
def containsWildcard (value : Str) : Bool :=
  value.any (fun c => c = '*' || c = '?')

/-- `main.go` `expandOpencodePatterns`: trim, drop empties, deduplicate, and
for every wildcard-free pattern also emit `<pattern> *` (deduplicated). -/
def expandOpencodePatterns (values : List Str) : List Str :=
  (values.foldl
    (fun st value =>
      let trimmed := trimSpace value
      if trimmed = [] then st
      else
        let st1 := appendUnique st.1 st.2 trimmed
        if containsWildcard trimmed then st1
        else appendUnique st1.1 st1.2 (trimmed ++ str " *"))
    ([], [])).1

/-! ### Specification-side combinators

`dedupKeepFirst` is the specification's "global deduplication preserving
first-seen order"; the bridge lemmas below show that the Go `seen`-map loops
compute exactly it. -/

/-- Keep the first occurrence of every element, in order. -/
def dedupKeepFirst : List Str → List Str
  | [] => []
  | x :: rest => x :: (dedupKeepFirst rest).filter (fun y => decide (y ≠ x))

theorem mem_of_mem_dedupKeepFirst {l : List Str} {x : Str}
    (h : x ∈ dedupKeepFirst l) : x ∈ l := by
  induction l with
  | nil => simp [dedupKeepFirst] at h
  | cons y rest ih =>
    simp only [dedupKeepFirst, List.mem_cons] at h
    rcases h with h | h
    · simp [h]
    · exact List.mem_cons_of_mem _ (ih (List.mem_of_mem_filter h))

/-- `dedupKeepFirst` commutes with `filter`. -/
theorem dedupKeepFirst_filter (p : Str → Bool) (l : List Str) :
    (dedupKeepFirst l).filter p = dedupKeepFirst (l.filter p) := by
  induction l with
  | nil => simp [dedupKeepFirst]
  | cons y rest ih =>
    by_cases hp : p y
    · simp only [dedupKeepFirst, List.filter_cons, hp, if_pos]
      rw [List.filter_comm, ih]
    · simp only [dedupKeepFirst, List.filter_cons, hp]
      simp only [Bool.false_eq_true, if_false]
      rw [List.filter_comm, ih]
      have : (dedupKeepFirst (rest.filter p)).filter (fun y' => decide (y' ≠ y)) =
          dedupKeepFirst (rest.filter p) := by
        rw [List.filter_eq_self]
        intro a ha
        have hpa : p a := List.of_mem_filter (mem_of_mem_dedupKeepFirst ha)
        simp only [decide_eq_true_eq]
        intro hay
        rw [hay] at hpa
        exact hp hpa
      rw [this]

/-- The `appendUnique` fold extends `out` by the first-seen deduplication of
the new items (those not already in `out`), given that `seen` and `out` hold
the same elements and no item is empty. -/
theorem appendUniqueAll_eq_dedup (items : List Str) :
    ∀ out seen : List Str, (∀ x : Str, x ∈ seen ↔ x ∈ out) →
      (∀ x ∈ items, x ≠ ([] : Str)) →
      (appendUniqueAll (out, seen) items).1 =
        out ++ dedupKeepFirst (items.filter (fun y => decide (y ∉ out))) := by
  induction items with
  | nil =>
    intro out seen _ _
    simp [appendUniqueAll, dedupKeepFirst]
  | cons x rest ih =>
    intro out seen hseen hne
    by_cases hx : x ∈ out
    · have hstep : appendUnique out seen x = (out, seen) := by
        unfold appendUnique
        rw [if_neg (hne x (by simp)), if_pos ((hseen x).2 hx)]
      have hrec :
          (appendUniqueAll (out, seen) (x :: rest)).1 =
            (appendUniqueAll (out, seen) rest).1 := by
        simp only [appendUniqueAll, List.foldl_cons, hstep]
      rw [hrec, ih out seen hseen (fun y hy => hne y (List.mem_cons_of_mem _ hy))]
      have hfilter :
          (x :: rest).filter (fun y => decide (y ∉ out)) =
            rest.filter (fun y => decide (y ∉ out)) := by
        simp [List.filter_cons, hx]
      rw [hfilter]
    · have hstep : appendUnique out seen x = (out ++ [x], x :: seen) := by
        unfold appendUnique
        rw [if_neg (hne x (by simp)), if_neg (fun hmem => hx ((hseen x).1 hmem))]
      have hrec :
          (appendUniqueAll (out, seen) (x :: rest)).1 =
            (appendUniqueAll (out ++ [x], x :: seen) rest).1 := by
        simp only [appendUniqueAll, List.foldl_cons, hstep]
      rw [hrec, ih (out ++ [x]) (x :: seen)
        (by
          intro y
          simp only [List.mem_cons, List.mem_append, List.mem_singleton, hseen y]
          tauto)
        (fun y hy => hne y (List.mem_cons_of_mem _ hy))]
      have hfilter :
          (x :: rest).filter (fun y => decide (y ∉ out)) =
            x :: rest.filter (fun y => decide (y ∉ out)) := by
        simp [List.filter_cons, hx]
      rw [hfilter, dedupKeepFirst, List.append_assoc]
      congr 1
      simp only [List.cons_append, List.nil_append]
      congr 1
      rw [dedupKeepFirst_filter, List.filter_filter]
      have hfe : rest.filter (fun y => decide (y ∉ out ++ [x])) =
          rest.filter (fun a => decide (a ≠ x) && decide (a ∉ out)) := by
        apply List.filter_congr
        intro y _
        by_cases hyx : y = x
        · simp [hyx]
        · simp [hyx, List.mem_append]
      rw [hfe]

/-- Running `appendUniqueAll` over a concatenation is running it over the
pieces in turn. -/
theorem appendUniqueAll_append (st : List Str × List Str) (a b : List Str) :
    appendUniqueAll st (a ++ b) = appendUniqueAll (appendUniqueAll st a) b := by
  simp [appendUniqueAll, List.foldl_append]

/-- The non-unique branch of `normalizeList` trims each entry and drops the
empty results. -/
theorem normalizeList_false_eq (values : List Str) :
    normalizeList values false =
      values.flatMap (fun v =>
        if trimSpace v = [] then [] else [trimSpace v]) := by
  have key : ∀ (l : List Str) (acc : List Str),
      l.foldl (fun out v =>
        let trimmed := trimSpace v
        if trimmed = [] then out else out ++ [trimmed]) acc =
      acc ++ l.flatMap (fun v =>
        if trimSpace v = [] then [] else [trimSpace v]) := by
    intro l
    induction l with
    | nil => intro acc; simp
    | cons v rest ih =>
      intro acc
      rw [List.foldl_cons, List.flatMap_cons]
      show rest.foldl _ (if trimSpace v = [] then acc else acc ++ [trimSpace v]) = _
      by_cases hv : trimSpace v = []
      · rw [if_pos hv, if_pos hv, List.nil_append]
        exact ih acc
      · rw [if_neg hv, if_neg hv, ih (acc ++ [trimSpace v]), List.append_assoc]
  simp only [normalizeList, Bool.false_eq_true, if_false]
  exact key values []

theorem mem_normalizeList_false_ne_nil {values : List Str} {x : Str}
    (h : x ∈ normalizeList values false) : x ≠ [] := by
  rw [normalizeList_false_eq, List.mem_flatMap] at h
  obtain ⟨v, _, hv⟩ := h
  by_cases ht : trimSpace v = []
  · rw [if_pos ht] at hv
    exact absurd hv (List.not_mem_nil x)
  · rw [if_neg ht, List.mem_singleton] at hv
    rw [hv]
    exact ht

theorem mem_toBashPatterns_ne_nil {values : List Str} {x : Str}
    (h : x ∈ toBashPatterns values) : x ≠ [] := by
  unfold toBashPatterns at h
  rw [List.mem_map] at h
  obtain ⟨v, _, hv⟩ := h
  rw [← hv]
  simp [str]

/-- Derived `Bash(...)` patterns never equal the sentinel token (they start
with `B`, the sentinel with `_`). -/
theorem bashSentinel_not_mem_toBashPatterns (values : List Str) :
    bashSentinel ∉ toBashPatterns values := by
  intro h
  unfold toBashPatterns at h
  rw [List.mem_map] at h
  obtain ⟨v, _, hv⟩ := h
  have : ('B' : Char) = '_' := by
    have := congrArg (fun l => l.headD ' ') hv
    simpa [str, bashSentinel] using this
  simp at this

/-- The sentinel-replacement loop of `expandWithBash` is the `appendUnique`
fold over the in-place expansion of the list. -/
theorem sentinelFold_eq_appendUniqueAll (bashPatterns : List Str) :
    ∀ (l : List Str) (st : List Str × List Str),
      l.foldl
        (fun st item =>
          if item = bashSentinel then appendUniqueAll st bashPatterns
          else appendUnique st.1 st.2 item) st =
      appendUniqueAll st
        (l.flatMap (fun x => if x = bashSentinel then bashPatterns else [x])) := by
  intro l
  induction l with
  | nil => intro st; simp [appendUniqueAll]
  | cons item rest ih =>
    intro st
    rw [List.foldl_cons, List.flatMap_cons]
    show rest.foldl _
        (if item = bashSentinel then appendUniqueAll st bashPatterns
          else appendUnique st.1 st.2 item) = _
    by_cases hitem : item = bashSentinel
    · rw [if_pos hitem, if_pos hitem, ih, appendUniqueAll_append]
    · rw [if_neg hitem, if_neg hitem, ih, appendUniqueAll_append]
      rfl

/-- `appendUniqueAll` starting from the empty state is exactly the first-seen
deduplication, for lists without empty entries. -/
theorem appendUniqueAll_nil_eq_dedup {items : List Str}
    (h : ∀ x ∈ items, x ≠ ([] : Str)) :
    (appendUniqueAll ([], []) items).1 = dedupKeepFirst items := by
  rw [appendUniqueAll_eq_dedup items [] [] (by simp) h]
  simp only [List.nil_append]
  congr 1
  rw [List.filter_eq_self]
  intro a _
  simp

/-- C6 helper: membership in the in-place sentinel expansion. -/
theorem mem_sentinelExpansion_ne_nil {values bashValues : List Str} {x : Str}
    (h : x ∈ (normalizeList values false).flatMap
      (fun y => if y = bashSentinel
        then toBashPatterns (normalizeList bashValues false) else [y])) :
    x ≠ [] := by
  rw [List.mem_flatMap] at h
  obtain ⟨a, ha, hx⟩ := h
  by_cases hab : a = bashSentinel
  · rw [if_pos hab] at hx
    exact mem_toBashPatterns_ne_nil hx
  · rw [if_neg hab] at hx
    rw [List.mem_singleton] at hx
    rw [hx]
    exact mem_normalizeList_false_ne_nil ha

/-- Claim C6: with at least one sentinel occurrence in the normalized list
and a non-empty derived pattern list, `expandWithBash` replaces each sentinel
occurrence in place by the full derived-pattern sequence and deduplicates
globally in first-seen order; the sentinel never survives into the output.
With no sentinel present, the derived patterns are appended after the list
and the combined result deduplicated. In particular
`expandWithBash ["foo", SENTINEL] ["git"] = ["foo", "Bash(git:*)"]`. -/
theorem expandWithBash_sentinel_spec :
    expandWithBash [str "foo", bashSentinel] [str "git"] =
      [str "foo", str "Bash(git:*)"] ∧
    (∀ values bashValues : List Str,
      toBashPatterns (normalizeList bashValues false) ≠ [] →
      bashSentinel ∈ normalizeList values false →
      expandWithBash values bashValues =
        dedupKeepFirst ((normalizeList values false).flatMap
          (fun x => if x = bashSentinel
            then toBashPatterns (normalizeList bashValues false) else [x])) ∧
      bashSentinel ∉ expandWithBash values bashValues) ∧
    (∀ values bashValues : List Str,
      toBashPatterns (normalizeList bashValues false) ≠ [] →
      bashSentinel ∉ normalizeList values false →
      expandWithBash values bashValues =
        dedupKeepFirst (normalizeList values false ++
          toBashPatterns (normalizeList bashValues false))) := by
  refine ⟨by decide, ?_, ?_⟩
  · intro values bashValues hbp hmem
    have hlen : ¬ (toBashPatterns (normalizeList bashValues false)).length = 0 := by
      simpa [List.length_eq_zero] using hbp
    have heq : expandWithBash values bashValues =
        dedupKeepFirst ((normalizeList values false).flatMap
          (fun x => if x = bashSentinel
            then toBashPatterns (normalizeList bashValues false) else [x])) := by
      unfold expandWithBash
      rw [if_neg hlen, if_pos hmem, sentinelFold_eq_appendUniqueAll]
      exact appendUniqueAll_nil_eq_dedup (fun x hx => mem_sentinelExpansion_ne_nil hx)
    refine ⟨heq, ?_⟩
    rw [heq]
    intro hsent
    have hmem2 := mem_of_mem_dedupKeepFirst hsent
    rw [List.mem_flatMap] at hmem2
    obtain ⟨a, _, hx⟩ := hmem2
    by_cases hab : a = bashSentinel
    · rw [if_pos hab] at hx
      exact bashSentinel_not_mem_toBashPatterns _ hx
    · rw [if_neg hab, List.mem_singleton] at hx
      exact hab hx.symm
  · intro values bashValues hbp hmem
    have hlen : ¬ (toBashPatterns (normalizeList bashValues false)).length = 0 := by
      simpa [List.length_eq_zero] using hbp
    unfold expandWithBash
    rw [if_neg hlen, if_neg hmem]
    unfold mergeUnique
    rw [show (List.foldl (fun st list => appendUniqueAll st list) ([], [])
        [normalizeList values false,
          toBashPatterns (normalizeList bashValues false)] =
        appendUniqueAll (appendUniqueAll ([], []) (normalizeList values false))
          (toBashPatterns (normalizeList bashValues false))) from rfl,
      ← appendUniqueAll_append]
    apply appendUniqueAll_nil_eq_dedup
    intro x hx
    rw [List.mem_append] at hx
    rcases hx with hx | hx
    · exact mem_normalizeList_false_ne_nil hx
    · exact mem_toBashPatterns_ne_nil hx

/-- Witness for C6: the theorem's general parts applied at concrete inputs. -/
theorem expandWithBash_sentinel_spec_witness :
    (expandWithBash [str "a", bashSentinel, str "a"] [str "git", str "ls"] =
        dedupKeepFirst ((normalizeList [str "a", bashSentinel, str "a"] false).flatMap
          (fun x => if x = bashSentinel
            then toBashPatterns (normalizeList [str "git", str "ls"] false) else [x])) ∧
      bashSentinel ∉ expandWithBash [str "a", bashSentinel, str "a"] [str "git", str "ls"]) ∧
    expandWithBash [str "a"] [str "git"] =
      dedupKeepFirst (normalizeList [str "a"] false ++
        toBashPatterns (normalizeList [str "git"] false)) :=
  ⟨expandWithBash_sentinel_spec.2.1 [str "a", bashSentinel, str "a"]
      [str "git", str "ls"] (by decide) (by decide),
    expandWithBash_sentinel_spec.2.2 [str "a"] [str "git"]
      (by decide) (by decide)⟩

/-- The `expandOpencodePatterns` loop is the `appendUnique` fold over the
per-pattern expansion. -/
theorem opencodeFold_eq_appendUniqueAll :
    ∀ (l : List Str) (st : List Str × List Str),
      l.foldl
        (fun st value =>
          let trimmed := trimSpace value
          if trimmed = [] then st
          else
            let st1 := appendUnique st.1 st.2 trimmed
            if containsWildcard trimmed then st1
            else appendUnique st1.1 st1.2 (trimmed ++ str " *")) st =
      appendUniqueAll st
        (l.flatMap (fun v =>
          if trimSpace v = [] then []
          else if containsWildcard (trimSpace v) then [trimSpace v]
          else [trimSpace v, trimSpace v ++ str " *"])) := by
  intro l
  induction l with
  | nil => intro st; simp [appendUniqueAll]
  | cons v rest ih =>
    intro st
    rw [List.foldl_cons, List.flatMap_cons]
    show rest.foldl _
        (if trimSpace v = [] then st
          else
            if containsWildcard (trimSpace v) then
              appendUnique st.1 st.2 (trimSpace v)
            else
              appendUnique (appendUnique st.1 st.2 (trimSpace v)).1
                (appendUnique st.1 st.2 (trimSpace v)).2
                (trimSpace v ++ str " *")) = _
    by_cases hv : trimSpace v = []
    · rw [if_pos hv, if_pos hv, ih, List.nil_append]
    · by_cases hw : containsWildcard (trimSpace v)
      · rw [if_neg hv, if_neg hv, if_pos hw, if_pos hw, ih,
          appendUniqueAll_append]
        rfl
      · rw [if_neg hv, if_neg hv, if_neg hw, if_neg hw, ih,
          appendUniqueAll_append]
        rfl

/-- Claim C9: the opencode pattern expander normalizes with deduplication,
passing wildcard-bearing patterns through unchanged and deriving
`<pattern> *` (skipped when already present) for each wildcard-free pattern;
in particular `expandOpencodePatterns ["git", "rm *"] = ["git", "git *",
"rm *"]`.  The first conjunct characterizes the whole function: the output is
the first-seen deduplication of the per-pattern expansion in input order. -/
theorem expandOpencodePatterns_spec :
    (∀ values : List Str,
      expandOpencodePatterns values =
        dedupKeepFirst (values.flatMap (fun v =>
          if trimSpace v = [] then []
          else if containsWildcard (trimSpace v) then [trimSpace v]
          else [trimSpace v, trimSpace v ++ str " *"]))) ∧
    expandOpencodePatterns [str "git", str "rm *"] =
      [str "git", str "git *", str "rm *"] := by
  constructor
  · intro values
    unfold expandOpencodePatterns
    rw [opencodeFold_eq_appendUniqueAll]
    apply appendUniqueAll_nil_eq_dedup
    intro x hx
    rw [List.mem_flatMap] at hx
    obtain ⟨v, _, hxv⟩ := hx
    by_cases hv : trimSpace v = []
    · rw [if_pos hv] at hxv
      exact absurd hxv (List.not_mem_nil x)
    · by_cases hw : containsWildcard (trimSpace v)
      · rw [if_neg hv, if_pos hw, List.mem_singleton] at hxv
        rw [hxv]
        exact hv
      · rw [if_neg hv, if_neg hw] at hxv
        rcases List.mem_cons.1 hxv with hxv | hxv
        · rw [hxv]; exact hv
        · rw [List.mem_singleton] at hxv
          rw [hxv]
          exact List.append_ne_nil_of_right_ne_nil _ (by simp [str])
  · decide

/-- Claim C10: when the derived pattern list normalizes to empty,
`expandWithBash` returns exactly the normalization of the input (wrapped by
`ensureSlice`, which turns an absent slice into an empty one); any sentinel
token in the normalized input survives verbatim. -/
theorem expandWithBash_emptyDerived :
    ∀ values bashValues : List Str,
      normalizeList bashValues false = [] →
      expandWithBash values bashValues = ensureSlice (normalizeList values false) ∧
      (bashSentinel ∈ normalizeList values false →
        bashSentinel ∈ expandWithBash values bashValues) := by
  intro values bashValues hempty
  have hbp : toBashPatterns (normalizeList bashValues false) = [] := by
    unfold toBashPatterns
    rw [show normalizeList (normalizeList bashValues false) false =
          normalizeList [] false by rw [hempty]]
    simp [normalizeList]
  have heq : expandWithBash values bashValues =
      ensureSlice (normalizeList values false) := by
    unfold expandWithBash
    rw [hbp]
    simp
  refine ⟨heq, fun hmem => ?_⟩
  rw [heq]
  exact hmem

/-- Witness for C10: empty derived list at a concrete input, with the
sentinel surviving. -/
theorem expandWithBash_emptyDerived_witness :
    expandWithBash [str "a", bashSentinel] [str "  "] =
      ensureSlice (normalizeList [str "a", bashSentinel] false) ∧
    (bashSentinel ∈ normalizeList [str "a", bashSentinel] false →
      bashSentinel ∈ expandWithBash [str "a", bashSentinel] [str "  "]) :=
  expandWithBash_emptyDerived [str "a", bashSentinel] [str "  "] (by decide)

/-! ### Codex rule grouping (`main.go` `groupCommands`,
`buildCodexDecisionRules`) -/

/-- Go `strings.Fields` helper: accumulate the current word (reversed) while
splitting on whitespace runs. -/
def fieldsAux (acc : Str) : Str → List Str
  | [] => if acc = [] then [] else [acc.reverse]
  | c :: rest =>
    if isGoSpace c then
      if acc = [] then fieldsAux [] rest
      else acc.reverse :: fieldsAux [] rest
    else fieldsAux (c :: acc) rest

/-- Go `strings.Fields`: split on runs of whitespace. -/
def fields (l : Str) : List Str := fieldsAux [] l

/-- `main.go` `commandGroup` (field `prefix` is named `pre`: `prefix` is not
usable as a Lean identifier). The Go `seen` set is a list whose membership is
what matters. -/
structure CommandGroup where
  pre : List Str
  alts : List Str
  seen : List Str
deriving DecidableEq

/-- `main.go` `groupedCommands`; the two Go maps become association lists. -/
structure GroupedCommands where
  order : List Str
  groups : List (Str × CommandGroup)
  singles : List (Str × List Str)
deriving DecidableEq

def assocFind {α : Type} (m : List (Str × α)) (k : Str) : Option α :=
  match m with
  | [] => none
  | (k', v) :: rest => if k' = k then some v else assocFind rest k

def assocUpdate {α : Type} (m : List (Str × α)) (k : Str) (f : α → α) :
    List (Str × α) :=
  match m with
  | [] => []
  | (k', v) :: rest =>
    if k' = k then (k', f v) :: rest else (k', v) :: assocUpdate rest k f

/-- Go builds the group key with `\x1f`-joined prefixes. -/
def sepChar : Char := '\x1F'

def singleKey (tok : Str) : Str := str "single|" ++ tok

def groupKey (n : Nat) (pre : List Str) : Str :=
  str "group|" ++ (Nat.repr n).toList ++ ('|' :: List.intercalate [sepChar] pre)

/-- `groupCommands`, multi-token case, first half: ensure the group exists
(Go's `if _, ok := gc.groups[key]; !ok { ... }`). -/
def groupInsert (gc : GroupedCommands) (key : Str) (pre : List Str) :
    GroupedCommands :=
  if (assocFind gc.groups key).isSome then gc
  else { gc with groups := gc.groups ++ [(key, ⟨pre, [], []⟩)],
                 order := gc.order ++ [key] }

/-- `groupCommands`, multi-token case, second half: record the last token as
a new alternative unless already seen. -/
def groupAddAlt (gc : GroupedCommands) (key : Str) (lastTok : Str) :
    GroupedCommands :=
  match assocFind gc.groups key with
  | none => gc
  | some g =>
    if lastTok ∈ g.seen then gc
    else { gc with groups := (assocUpdate gc.groups key
        (fun g => { g with seen := lastTok :: g.seen,
                           alts := g.alts ++ [lastTok] })) }

/-- One iteration of the `groupCommands` loop. -/
def groupStep (gc : GroupedCommands) (cmd : Str) : GroupedCommands :=
  match fields cmd with
  | [] => gc
  | tok :: toks =>
    if toks = [] then
      if (assocFind gc.singles (singleKey tok)).isSome then gc
      else { gc with singles := gc.singles ++ [(singleKey tok, [tok])],
                     order := gc.order ++ [singleKey tok] }
    else
      groupAddAlt
        (groupInsert gc (groupKey (tok :: toks).length (tok :: toks).dropLast)
          (tok :: toks).dropLast)
        (groupKey (tok :: toks).length (tok :: toks).dropLast)
        ((tok :: toks).getLastD [])

def groupCommands (commands : List Str) : GroupedCommands :=
  commands.foldl groupStep ⟨[], [], []⟩

/-- `main.go` `codexRule` (Go fields `PatternPrefix`, `PatternAlts`,
`Decision`, `Match`). -/
structure CodexRule where
  patPre : List Str
  patAlts : List Str
  decision : Str
  matchText : Str
deriving DecidableEq

def joinSpace (toks : List Str) : Str := List.intercalate (str " ") toks

/-- The per-key body of the `buildCodexDecisionRules` loop. -/
def buildRulesForKey (gc : GroupedCommands) (decision : Str) (key : Str) :
    List CodexRule :=
  match assocFind gc.singles key with
  | some tokens => [⟨tokens, [], decision, joinSpace tokens⟩]
  | none =>
    match assocFind gc.groups key with
    | none => []
    | some g =>
      match g.alts with
      | [] => []
        -- Go reads alts[0] here and would panic; groups_alts_ne_nil below
        -- shows every stored group has at least one alternative, so this
        -- branch is unreachable.
      | [a] => [⟨g.pre ++ [a], [], decision, joinSpace (g.pre ++ [a])⟩]
      | a :: b :: rest =>
        [⟨g.pre, a :: b :: rest, decision, joinSpace (g.pre ++ [a])⟩]

def buildCodexDecisionRules (decision : Str) (commands : List Str) :
    List CodexRule :=
  (groupCommands commands).order.flatMap
    (buildRulesForKey (groupCommands commands) decision)

theorem assocFind_append {α : Type} (m m' : List (Str × α)) (k : Str) :
    assocFind (m ++ m') k =
      match assocFind m k with
      | some v => some v
      | none => assocFind m' k := by
  induction m with
  | nil => simp [assocFind]
  | cons p rest ih =>
    obtain ⟨k', v⟩ := p
    by_cases hk : k' = k
    · simp [assocFind, hk]
    · simp [assocFind, hk, ih]

theorem assocFind_assocUpdate_self {α : Type} (m : List (Str × α)) (k : Str)
    (f : α → α) :
    assocFind (assocUpdate m k f) k = (assocFind m k).map f := by
  induction m with
  | nil => simp [assocFind, assocUpdate]
  | cons p rest ih =>
    obtain ⟨k', v⟩ := p
    by_cases hk : k' = k
    · simp [assocFind, assocUpdate, hk]
    · simp [assocFind, assocUpdate, hk, ih]

theorem assocFind_assocUpdate_ne {α : Type} (m : List (Str × α)) (k k' : Str)
    (f : α → α) (h : k' ≠ k) :
    assocFind (assocUpdate m k f) k' = assocFind m k' := by
  induction m with
  | nil => simp [assocUpdate]
  | cons p rest ih =>
    obtain ⟨k'', v⟩ := p
    by_cases hk : k'' = k
    · have hne : k'' ≠ k' := fun he => h (he ▸ hk)
      simp [assocFind, assocUpdate, hk, hne, Ne.symm h]
    · by_cases hk' : k'' = k'
      · simp [assocFind, assocUpdate, hk, hk', h]
      · simp [assocFind, assocUpdate, hk, hk', ih]

/-- The invariant of the group store: every stored group has at least one
alternative (each group is created and immediately given its first
alternative within one `groupStep`). -/
def GroupsInv (gc : GroupedCommands) : Prop :=
  ∀ k g, assocFind gc.groups k = some g → g.alts ≠ []

/-- Unfolding equation for `groupAddAlt` when the group exists. -/
theorem groupAddAlt_eq_some {gc : GroupedCommands} {key lastTok : Str}
    {g0 : CommandGroup} (hg0 : assocFind gc.groups key = some g0) :
    groupAddAlt gc key lastTok =
      if lastTok ∈ g0.seen then gc
      else { gc with groups := (assocUpdate gc.groups key
          (fun g => { g with seen := lastTok :: g.seen,
                             alts := g.alts ++ [lastTok] })) } := by
  unfold groupAddAlt
  rw [hg0]

theorem groupAddAlt_groupInsert_inv {gc : GroupedCommands}
    (h : GroupsInv gc) (key : Str) (pre : List Str) (lastTok : Str) :
    GroupsInv (groupAddAlt (groupInsert gc key pre) key lastTok) := by
  by_cases hs : (assocFind gc.groups key).isSome
  · obtain ⟨g0, hg0⟩ := Option.isSome_iff_exists.1 hs
    have hins : groupInsert gc key pre = gc := by
      unfold groupInsert
      rw [if_pos hs]
    rw [hins, groupAddAlt_eq_some hg0]
    by_cases hseen : lastTok ∈ g0.seen
    · rw [if_pos hseen]
      exact h
    · rw [if_neg hseen]
      intro k g hfind
      by_cases hk : k = key
      · rw [hk] at hfind
        simp only [assocFind_assocUpdate_self, hg0, Option.map_some'] at hfind
        have := Option.some_inj.1 hfind
        rw [← this]
        exact List.append_ne_nil_of_right_ne_nil _ (by simp)
      · rw [show (({ gc with groups := (assocUpdate gc.groups key
              (fun g => { g with seen := lastTok :: g.seen,
                                 alts := g.alts ++ [lastTok] })) }
            : GroupedCommands).groups =
            assocUpdate gc.groups key
              (fun g => { g with seen := lastTok :: g.seen,
                                 alts := g.alts ++ [lastTok] })) from rfl,
          assocFind_assocUpdate_ne _ _ _ _ hk] at hfind
        exact h k g hfind
  · have hnone : assocFind gc.groups key = none := by
      cases hfind : assocFind gc.groups key with
      | none => rfl
      | some v => rw [hfind] at hs; simp at hs
    have hins : (groupInsert gc key pre).groups =
        gc.groups ++ [(key, ⟨pre, [], []⟩)] := by
      unfold groupInsert
      rw [if_neg hs]
    have hfindnew : assocFind (groupInsert gc key pre).groups key =
        some ⟨pre, [], []⟩ := by
      rw [hins, assocFind_append, hnone]
      simp [assocFind]
    rw [groupAddAlt_eq_some hfindnew]
    rw [if_neg (List.not_mem_nil lastTok)]
    intro k g hfind
    by_cases hk : k = key
    · rw [hk] at hfind
      simp only [assocFind_assocUpdate_self, hfindnew, Option.map_some'] at hfind
      have := Option.some_inj.1 hfind
      rw [← this]
      simp
    · rw [show (({ groupInsert gc key pre with
            groups := (assocUpdate (groupInsert gc key pre).groups key
              (fun g => { g with seen := lastTok :: g.seen,
                                 alts := g.alts ++ [lastTok] })) }
          : GroupedCommands).groups =
          assocUpdate (groupInsert gc key pre).groups key
            (fun g => { g with seen := lastTok :: g.seen,
                               alts := g.alts ++ [lastTok] })) from rfl,
        assocFind_assocUpdate_ne _ _ _ _ hk, hins, assocFind_append] at hfind
      cases hoc : assocFind gc.groups k with
      | some v =>
        rw [hoc] at hfind
        exact h k g (hoc.trans hfind)
      | none =>
        rw [hoc] at hfind
        simp only [assocFind] at hfind
        rw [if_neg (fun he : key = k => hk he.symm)] at hfind
        exact absurd hfind (by simp)

/-- Unfolding equation for `groupStep` on a command with tokens. -/
theorem groupStep_eq_cons {gc : GroupedCommands} {cmd tok : Str}
    {toks : List Str} (hf : fields cmd = tok :: toks) :
    groupStep gc cmd =
      if toks = [] then
        if (assocFind gc.singles (singleKey tok)).isSome then gc
        else { gc with singles := gc.singles ++ [(singleKey tok, [tok])],
                       order := gc.order ++ [singleKey tok] }
      else
        groupAddAlt
          (groupInsert gc
            (groupKey (tok :: toks).length (tok :: toks).dropLast)
            (tok :: toks).dropLast)
          (groupKey (tok :: toks).length (tok :: toks).dropLast)
          ((tok :: toks).getLastD []) := by
  unfold groupStep
  rw [hf]

theorem groupStep_eq_nil {gc : GroupedCommands} {cmd : Str}
    (hf : fields cmd = []) : groupStep gc cmd = gc := by
  unfold groupStep
  rw [hf]

theorem groupStep_inv {gc : GroupedCommands} {cmd : Str}
    (h : GroupsInv gc) : GroupsInv (groupStep gc cmd) := by
  cases hf : fields cmd with
  | nil => rw [groupStep_eq_nil hf]; exact h
  | cons tok toks =>
    rw [groupStep_eq_cons hf]
    by_cases htoks : toks = []
    · rw [if_pos htoks]
      by_cases hs : (assocFind gc.singles (singleKey tok)).isSome
      · rw [if_pos hs]; exact h
      · rw [if_neg hs]; exact h
    · rw [if_neg htoks]
      exact groupAddAlt_groupInsert_inv h _ _ _

theorem groups_alts_ne_nil (commands : List Str) :
    GroupsInv (groupCommands commands) := by
  suffices h : ∀ (l : List Str) (gc : GroupedCommands),
      GroupsInv gc → GroupsInv (l.foldl groupStep gc) by
    exact h commands ⟨[], [], []⟩ (fun k g hg => by simp [assocFind] at hg)
  intro l
  induction l with
  | nil => intro gc h; exact h
  | cons cmd rest ih =>
    intro gc h
    exact ih _ (groupStep_inv h)

/-- Claim C7: grouping `["git status", "git log", "ls", "git status"]` yields
exactly the alternating `git` rule followed by the standalone `ls` rule, for
any decision tag; the duplicate full command is ignored.  The second conjunct
shows that output order is first-occurrence order of each group key, not
alphabetical: with `"ls"` first in the input, its rule precedes the `git`
rule. -/
theorem buildCodexRules_grouping_example :
    (∀ decision : Str,
      buildCodexDecisionRules decision
        [str "git status", str "git log", str "ls", str "git status"] =
        [⟨[str "git"], [str "status", str "log"], decision, str "git status"⟩,
         ⟨[str "ls"], [], decision, str "ls"⟩]) ∧
    (∀ decision : Str,
      buildCodexDecisionRules decision [str "ls", str "git status"] =
        [⟨[str "ls"], [], decision, str "ls"⟩,
         ⟨[str "git", str "status"], [], decision, str "git status"⟩]) :=
  ⟨fun _ => rfl, fun _ => rfl⟩

/-- Claim C8: no rule produced by the grouper has an alternatives list with
exactly one element; moreover every stored group has at least one
alternative, and a group whose alternatives are exactly `[a]` is emitted as a
non-alternating rule whose prefix is the full token sequence. -/
theorem codexRules_no_single_alternative :
    (∀ (decision : Str) (commands : List Str) (r : CodexRule),
      r ∈ buildCodexDecisionRules decision commands → r.patAlts.length ≠ 1) ∧
    (∀ (commands : List Str) (key : Str) (g : CommandGroup),
      assocFind (groupCommands commands).groups key = some g →
      g.alts ≠ [] ∧
      (∀ (decision : Str) (a : Str), g.alts = [a] →
        assocFind (groupCommands commands).singles key = none →
        buildRulesForKey (groupCommands commands) decision key =
          [⟨g.pre ++ [a], [], decision, joinSpace (g.pre ++ [a])⟩])) := by
  constructor
  · intro decision commands r hr
    unfold buildCodexDecisionRules at hr
    rw [List.mem_flatMap] at hr
    obtain ⟨key, _, hr⟩ := hr
    unfold buildRulesForKey at hr
    split at hr
    · rw [List.mem_singleton] at hr
      rw [hr]
      simp
    · split at hr
      · exact absurd hr (List.not_mem_nil r)
      · split at hr
        · exact absurd hr (List.not_mem_nil r)
        · rw [List.mem_singleton] at hr
          rw [hr]
          simp
        · rw [List.mem_singleton] at hr
          rw [hr]
          simp
  · intro commands key g hfind
    refine ⟨groups_alts_ne_nil commands key g hfind, ?_⟩
    intro decision a ha hsingle
    unfold buildRulesForKey
    simp only [hsingle, hfind, ha]

/-- Witness for C8: the no-single-alternative invariant and the collapse rule
applied at concrete inputs. -/
theorem codexRules_no_single_alternative_witness :
    (⟨[str "git"], [str "status", str "log"], str "allow", str "git status"⟩ :
        CodexRule).patAlts.length ≠ 1 ∧
    buildRulesForKey (groupCommands [str "a b"]) (str "allow")
        (groupKey 2 [str "a"]) =
      [⟨[str "a"] ++ [str "b"], [], str "allow",
        joinSpace ([str "a"] ++ [str "b"])⟩] :=
  ⟨codexRules_no_single_alternative.1 (str "allow")
      [str "git status", str "git log", str "ls", str "git status"]
      ⟨[str "git"], [str "status", str "log"], str "allow", str "git status"⟩
      (by decide),
    ((codexRules_no_single_alternative.2 [str "a b"] (groupKey 2 [str "a"])
        ⟨[str "a"], [str "b"], [str "b"]⟩ (by decide)).2
      (str "allow") (str "b") (by decide) (by decide))⟩

/-! ### The structural text scanner (`json_scan.go`)

Positions are character indices (ASCII: Go's byte indices).  The scanning
loops are written with an explicit `fuel` parameter so that they stay
structurally recursive and computable; the entry points pass
`contents.length + 1`, which the fuel-sufficiency lemmas show is always
enough, so the `outOfFuel` error is unreachable from them.  A Go `for` loop
that would index past the end of the string (a panic) is also mapped to
`outOfFuel`. -/

/-- One constructor per distinct error site of the Go source. -/
inductive GoErr where
  | expectedString
  | unterminatedString
  | missingColon
  | missingValue
  | keyNotFound
  | expectedDelim
  | unterminatedDelim
  | valueNotObject
  | markerNotAlone
  | tooFewLines
  | outOfFuel
deriving DecidableEq

instance exceptDecEq {ε α : Type} [DecidableEq ε] [DecidableEq α] :
    DecidableEq (Except ε α) := fun a b =>
  match a, b with
  | .error e, .error e' => decidable_of_iff (e = e') (by simp)
  | .ok v, .ok v' => decidable_of_iff (v = v') (by simp)
  | .error _, .ok _ => isFalse (by simp)
  | .ok _, .error _ => isFalse (by simp)

/-- The loop of `json_scan.go` `scanString`, over the suffix after the
opening quote; `i` is the absolute position of the head of `rest`, `acc` the
raw span scanned so far (escapes included, as in Go). -/
def scanStrAux : Str → Nat → Bool → Str → Except GoErr (Str × Nat)
  | _, _, _, [] => .error .unterminatedString
  | acc, i, escaped, c :: rest =>
    if escaped then scanStrAux (acc ++ [c]) (i + 1) false rest
    else if c = '\\' then scanStrAux (acc ++ [c]) (i + 1) true rest
    else if c = '"' then .ok (acc, i)
    else scanStrAux (acc ++ [c]) (i + 1) false rest

/-- `json_scan.go` `scanString`: `start` must hold a quote; returns the raw
token and the position of the closing quote. -/
def scanString (contents : Str) (start : Nat) : Except GoErr (Str × Nat) :=
  if contents[start]? = some '"' then
    scanStrAux [] (start + 1) false (contents.drop (start + 1))
  else .error .expectedString

/-- `json_scan.go` `skipSpaces`' whitespace set. -/
def isJsonSpace (c : Char) : Bool :=
  c = ' ' || c = '\n' || c = '\r' || c = '\t'

/-- `json_scan.go` `skipSpaces`: the first non-whitespace position at or
after `start`, or the length of the text. -/
def skipSpacesGo (contents : Str) (start : Nat) : Nat :=
  if contents.length ≤ start then contents.length
  else start + ((contents.drop start).takeWhile isJsonSpace).length

/-- The loop of `json_scan.go` `findKeyInRange`. -/
def findKeyLoop (contents : Str) (key : Str) (endIdx : Int) :
    Nat → Nat → Int → Except GoErr (Nat × Nat)
  | 0, _, _ => .error .outOfFuel
  | fuel + 1, i, depth =>
    if (i : Int) ≤ endIdx then
      match contents[i]? with
      | none => .error .outOfFuel
      | some c =>
        if c = '"' then
          match scanString contents i with
          | .error e => .error e
          | .ok (token, strEnd) =>
            if depth = 1 ∧ token = key then
              let j := skipSpacesGo contents (strEnd + 1)
              if contents.length ≤ j ∨ contents[j]? ≠ some ':' then
                .error .missingColon
              else
                let j2 := skipSpacesGo contents (j + 1)
                if contents.length ≤ j2 then .error .missingValue
                else .ok (i, j2)
            else findKeyLoop contents key endIdx fuel (strEnd + 1) depth
        else if c = '{' then
          findKeyLoop contents key endIdx fuel (i + 1) (depth + 1)
        else if c = '}' then
          findKeyLoop contents key endIdx fuel (i + 1) (depth - 1)
        else findKeyLoop contents key endIdx fuel (i + 1) depth
    else .error .keyNotFound

/-- `json_scan.go` `findKeyInRange`. -/
def findKeyInRange (contents : Str) (start : Nat) (endIdx : Int) (key : Str) :
    Except GoErr (Nat × Nat) :=
  findKeyLoop contents key endIdx (contents.length + 1) start 0

/-- The loop of `json_scan.go` `findMatchingDelimiter`. -/
def findMDLoop (contents : Str) (op cl : Char) :
    Nat → Nat → Int → Except GoErr Nat
  | 0, _, _ => .error .outOfFuel
  | fuel + 1, i, depth =>
    match contents[i]? with
    | none => .error .unterminatedDelim
    | some c =>
      if c = '"' then
        match scanString contents i with
        | .error e => .error e
        | .ok (_, strEnd) => findMDLoop contents op cl fuel (strEnd + 1) depth
      else if c = op then findMDLoop contents op cl fuel (i + 1) (depth + 1)
      else if c = cl then
        if depth - 1 = 0 then .ok i
        else findMDLoop contents op cl fuel (i + 1) (depth - 1)
      else findMDLoop contents op cl fuel (i + 1) depth

/-- `json_scan.go` `findMatchingDelimiter`: `start` must hold `op`; depth
counting with strings skipped as units. -/
def findMatchingDelimiter (contents : Str) (start : Nat) (op cl : Char) :
    Except GoErr Nat :=
  if contents[start]? = some op then
    findMDLoop contents op cl (contents.length + 1) start 0
  else .error .expectedDelim

def findMatchingBrace (contents : Str) (start : Nat) : Except GoErr Nat :=
  findMatchingDelimiter contents start '{' '}'

/-- `json_scan.go` `findObjectForKey`: locate the key, require a `{` value,
return (keyPos, valueStart, valueEnd). -/
def findObjectForKey (contents : Str) (key : Str) :
    Except GoErr (Nat × Nat × Nat) :=
  match findKeyInRange contents 0 ((contents.length : Int) - 1) key with
  | .error e => .error e
  | .ok (keyPos, valueStart) =>
    if contents[valueStart]? ≠ some '{' then .error .valueNotObject
    else
      match findMatchingBrace contents valueStart with
      | .error e => .error e
      | .ok valueEnd => .ok (keyPos, valueStart, valueEnd)

/-! ### The text splicer (`main.go`) -/

/-- Go `strings.Index` (first occurrence), as `Option Nat` (`none` = Go -1). -/
def stringsIndex : Str → Str → Option Nat
  | s, pat =>
    if pat.isPrefixOf s then some 0
    else
      match s with
      | [] => none
      | _ :: rest => (stringsIndex rest pat).map (· + 1)

/-- `strings.LastIndex(l, "\n") + 1`: the start of the line containing the
end of `l`. -/
def lineStart (l : Str) : Nat :=
  l.length - (l.reverse.takeWhile (fun c => decide (c ≠ '\n'))).length

/-- `main.go` `lineIndent`: the text of the marker's line before the marker;
an error unless it is pure whitespace. -/
def lineIndent (contents : Str) (markerPos : Nat) : Except GoErr Str :=
  if trimSpace ((contents.take markerPos).drop
      (lineStart (contents.take markerPos))) ≠ [] then
    .error .markerNotAlone
  else
    .ok ((contents.take markerPos).drop (lineStart (contents.take markerPos)))

/-- `main.go` `lineIndentForPos` (no whitespace check). -/
def lineIndentForPos (contents : Str) (pos : Nat) : Str :=
  (contents.take pos).drop (lineStart (contents.take pos))

/-- Go `strings.Split(s, "\n")`. -/
def splitNl : Str → List Str
  | [] => [[]]
  | c :: rest =>
    if c = '\n' then [] :: splitNl rest
    else
      match splitNl rest with
      | [] => [[c]]
      | l :: ls => (c :: l) :: ls

/-- `main.go` `indentMultilineValue`: prefix every line but the first with
`indent`. -/
def indentMultilineValue (value indent : Str) : Str :=
  match splitNl value with
  | [] => []
  | l :: ls => List.intercalate ['\n'] (l :: ls.map (fun line => indent ++ line))

/-- `main.go` `innerJSONLines`: the lines between the outer braces, each
stripped of one two-space indent level when present. -/
def innerJSONLines (data : Str) : Except GoErr (List Str) :=
  if (splitNl data).length < 2 then .error .tooFewLines
  else
    .ok ((((splitNl data).drop 1).take ((splitNl data).length - 2)).map
      (fun line => if (str "  ").isPrefixOf line then line.drop 2 else line))

/-! #### Go `encoding/json` `MarshalIndent` for the fixed `claudePermissions`
struct (four `[]string` fields in declaration order, prefix `""`, indent
`"  "`).  String escaping follows Go's encoder: quote, backslash, \n, \r,
\t, HTML characters `<` `>` `&`, other control characters, and
U+2028/U+2029.  (Go renders a nil slice as `null`; the list model has no
nil, matching the `ensureSlice`-guarded values the program builds.) -/

structure ClaudePermissions where
  allow : List Str
  ask : List Str
  deny : List Str
  additionalDirectories : List Str
deriving DecidableEq

def hexDigit (n : Nat) : Char :=
  if n < 10 then Char.ofNat (48 + n) else Char.ofNat (87 + n)

def jsonEscapeChar (c : Char) : Str :=
  if c = '"' then ['\\', '"']
  else if c = '\\' then ['\\', '\\']
  else if c = '\n' then ['\\', 'n']
  else if c = '\r' then ['\\', 'r']
  else if c = '\t' then ['\\', 't']
  else if c = '<' then str "\\u003c"
  else if c = '>' then str "\\u003e"
  else if c = '&' then str "\\u0026"
  else if c.toNat < 0x20 then
    str "\\u00" ++ [hexDigit (c.toNat / 16), hexDigit (c.toNat % 16)]
  else if c = ' ' then str "\\u2028"
  else if c = ' ' then str "\\u2029"
  else [c]

def jsonQuote (s : Str) : Str := '"' :: s.flatMap jsonEscapeChar ++ ['"']

/-- One `[]string` field value, rendered at nesting depth 1. -/
def renderArr (xs : List Str) : Str :=
  match xs with
  | [] => str "[]"
  | _ =>
    str "[\n" ++
      List.intercalate (str ",\n") (xs.map (fun x => str "    " ++ jsonQuote x)) ++
      str "\n  ]"

/-- Everything between the outer braces of the marshalled struct. -/
def marshalInner (p : ClaudePermissions) : Str :=
  str "\n  " ++ jsonQuote (str "allow") ++ str ": " ++ renderArr p.allow ++
  str ",\n  " ++ jsonQuote (str "ask") ++ str ": " ++ renderArr p.ask ++
  str ",\n  " ++ jsonQuote (str "deny") ++ str ": " ++ renderArr p.deny ++
  str ",\n  " ++ jsonQuote (str "additionalDirectories") ++ str ": " ++
    renderArr p.additionalDirectories ++ str "\n"

def marshalIndentPermissions (p : ClaudePermissions) : Str :=
  '{' :: marshalInner p ++ ['}']

/-- `main.go` `permissionsLines`. -/
def permissionsLines (p : ClaudePermissions) : Except GoErr (List Str) :=
  innerJSONLines (marshalIndentPermissions p)

/-- The marker literals of `main.go` (`{{/* PERMISSIONS:START */}}` and
`{{/* PERMISSIONS:END */}}`, braces written as escapes). -/
def startMarker : Str := str "\x7b\x7b/* PERMISSIONS:START */\x7d\x7d"

def endMarker : Str := str "\x7b\x7b/* PERMISSIONS:END */\x7d\x7d"

/-- `main.go` `replaceBlockWithLines` (`endPos` is Go's `end`). -/
def replaceBlockWithLines (contents : Str) (start endPos : Nat)
    (lines : List Str) : Except GoErr Str :=
  match lineIndent contents start with
  | .error e => .error e
  | .ok indent =>
    .ok (contents.take start ++ startMarker ++ '\n' ::
      (List.intercalate ['\n'] (lines.map (fun line => indent ++ line)) ++
        '\n' :: indent ++ endMarker) ++
      contents.drop (endPos + endMarker.length))

/-- `main.go` `replaceWithMarkers`. -/
def replaceWithMarkers (contents : Str) (p : ClaudePermissions)
    (start endPos : Nat) : Except GoErr Str :=
  match permissionsLines p with
  | .error e => .error e
  | .ok lines => replaceBlockWithLines contents start endPos lines

/-- `main.go` `replacePermissionsJSON` (the structural strategy). -/
def replacePermissionsJSON (contents : Str) (p : ClaudePermissions) :
    Except GoErr Str :=
  match findObjectForKey contents (str "permissions") with
  | .error e => .error e
  | .ok (keyPos, objStart, objEnd) =>
    .ok (contents.take objStart ++
      indentMultilineValue (marshalIndentPermissions p)
        (lineIndentForPos contents keyPos) ++
      contents.drop (objEnd + 1))

/-- `main.go` `replacePermissionsBlock`: marker strategy when both markers
occur with start strictly before end, otherwise the structural strategy. -/
def replacePermissionsBlock (contents : Str) (p : ClaudePermissions) :
    Except GoErr Str :=
  match stringsIndex contents startMarker, stringsIndex contents endMarker with
  | some s, some e =>
    if s < e then replaceWithMarkers contents p s e
    else replacePermissionsJSON contents p
  | _, _ => replacePermissionsJSON contents p

/-- `main.go` `replaceOpencodePermissionsJSON`. -/
def replaceOpencodePermissionsJSON (contents permissionsJSON : Str) :
    Except GoErr Str :=
  match findObjectForKey contents (str "permission") with
  | .error e => .error e
  | .ok (permKeyPos, permStart, permEnd) =>
    .ok (contents.take permStart ++
      indentMultilineValue permissionsJSON
        (lineIndentForPos contents permKeyPos) ++
      contents.drop (permEnd + 1))

/-- `main.go` `replaceOpencodePermissions`. -/
def replaceOpencodePermissions (contents permissionsJSON : Str)
    (lines : List Str) : Except GoErr Str :=
  match stringsIndex contents startMarker, stringsIndex contents endMarker with
  | some s, some e =>
    if s < e then replaceBlockWithLines contents s e lines
    else replaceOpencodePermissionsJSON contents permissionsJSON
  | _, _ => replaceOpencodePermissionsJSON contents permissionsJSON

/-- The marshal model reproduces `TestPermissionsLines` of `main_test.go`. -/
theorem permissionsLines_matches_go_test :
    permissionsLines ⟨[str "a"], [], [], []⟩ =
      .ok [str "\"allow\": [", str "  \"a\"", str "],", str "\"ask\": [],",
        str "\"deny\": [],", str "\"additionalDirectories\": []"] := by
  decide

/-! ### Occurrences of a pattern in a text, and `stringsIndex` -/

theorem getElem?_append_lt {α : Type} {l₁ l₂ : List α} {n : Nat}
    (h : n < l₁.length) : (l₁ ++ l₂)[n]? = l₁[n]? := by
  rw [List.getElem?_append]
  exact if_pos h

theorem getElem?_take_lt {α : Type} {l : List α} {n i : Nat} (h : i < n) :
    (l.take n)[i]? = l[i]? := by
  rw [List.getElem?_take]
  exact if_pos h

/-- `pat` occurs in `l` at position `p`. -/
def occursAt (pat l : Str) (p : Nat) : Prop := pat <+: l.drop p

instance (pat l : Str) (p : Nat) : Decidable (occursAt pat l p) :=
  inferInstanceAs (Decidable (pat <+: l.drop p))

theorem occursAt_iff_getElem {pat l : Str} {p : Nat} :
    occursAt pat l p ↔ ∀ j, j < pat.length → l[p + j]? = pat[j]? := by
  constructor
  · intro h j hj
    obtain ⟨t, ht⟩ := h
    rw [show l[p + j]? = (l.drop p)[j]? from (List.getElem?_drop l p j).symm, ← ht,
      getElem?_append_lt (by simpa using hj)]
  · intro h
    induction pat generalizing p with
    | nil => exact List.nil_prefix
    | cons c pt ih =>
      have h0 : l[p]? = some c := by
        have := h 0 (by simp)
        simpa using this
      have hp : p < l.length := by
        by_contra hc
        rw [List.getElem?_eq_none (by omega)] at h0
        exact Option.noConfusion h0
      have hl : l[p] = c := by
        rw [List.getElem?_eq_getElem hp] at h0
        exact Option.some_inj.1 h0
      unfold occursAt
      rw [List.drop_eq_getElem_cons hp, hl]
      have hpt : pt <+: l.drop (p + 1) := by
        apply ih
        intro j hj
        have := h (j + 1) (by simpa using Nat.succ_lt_succ hj)
        rw [show p + (j + 1) = p + 1 + j by omega] at this
        simpa using this
      exact List.cons_prefix_cons.2 ⟨rfl, hpt⟩

theorem occursAt_length_le {pat l : Str} {p : Nat} (hne : pat ≠ [])
    (h : occursAt pat l p) : p + pat.length ≤ l.length := by
  have hlen := h.length_le
  rw [List.length_drop] at hlen
  by_cases hp : p ≤ l.length
  · omega
  · exfalso
    have : pat.length = 0 := by omega
    exact hne (List.length_eq_zero.1 this)

theorem occursAt_append_left {pat a : Str} (b : Str) {p : Nat}
    (h : occursAt pat a p) : occursAt pat (a ++ b) p := by
  unfold occursAt at h ⊢
  by_cases hp : p ≤ a.length
  · rw [List.drop_append_of_le_length hp]
    exact h.trans (List.prefix_append _ _)
  · rw [List.drop_eq_nil_of_le (by omega)] at h
    rw [List.prefix_nil.1 h]
    exact List.nil_prefix

theorem occursAt_append_right {pat b : Str} (a : Str) {p : Nat}
    (h : occursAt pat b p) : occursAt pat (a ++ b) (a.length + p) := by
  unfold occursAt at h ⊢
  rw [List.drop_append]
  exact h

theorem occursAt_left_of_append {pat a b : Str} {p : Nat}
    (h : occursAt pat (a ++ b) p) (hle : p + pat.length ≤ a.length) :
    occursAt pat a p := by
  rw [occursAt_iff_getElem] at h ⊢
  intro j hj
  have := h j hj
  rwa [getElem?_append_lt (by omega)] at this

theorem occursAt_right_of_append {pat a b : Str} {p : Nat}
    (h : occursAt pat (a ++ b) p) (hge : a.length ≤ p) :
    occursAt pat b (p - a.length) := by
  unfold occursAt at h ⊢
  rw [show p = a.length + (p - a.length) by omega, List.drop_append] at h
  exact h

/-- Texts agreeing on a prefix containing the whole occurrence agree on it. -/
theorem occursAt_of_take_eq {l₁ l₂ : Str} {k : Nat} (hk : l₁.take k = l₂.take k)
    {pat : Str} {p : Nat} (hle : p + pat.length ≤ k) :
    occursAt pat l₁ p ↔ occursAt pat l₂ p := by
  rw [occursAt_iff_getElem, occursAt_iff_getElem]
  constructor <;> intro h j hj
  · rw [show l₂[p + j]? = (l₂.take k)[p + j]? from
        (getElem?_take_lt (by omega)).symm, ← hk,
      getElem?_take_lt (by omega)]
    exact h j hj
  · rw [show l₁[p + j]? = (l₁.take k)[p + j]? from
        (getElem?_take_lt (by omega)).symm, hk,
      getElem?_take_lt (by omega)]
    exact h j hj

/-- No pattern free of newlines covers a newline position. -/
theorem occursAt_no_newline {pat l : Str} {p q : Nat}
    (h : occursAt pat l p) (hnl : '\n' ∉ pat) (h1 : p ≤ q)
    (h2 : q < p + pat.length) : l[q]? ≠ some '\n' := by
  intro hq
  have hj : q - p < pat.length := by omega
  have := (occursAt_iff_getElem.1 h) (q - p) hj
  rw [show p + (q - p) = q by omega, hq] at this
  have hmem : '\n' ∈ pat := by
    have h' := this.symm
    rw [List.getElem?_eq_getElem hj] at h'
    have h2' := Option.some_inj.1 h'
    exact h2' ▸ List.getElem_mem hj
  exact hnl hmem

theorem stringsIndex_nil (pat : Str) :
    stringsIndex [] pat = if pat = [] then some 0 else none := by
  rw [stringsIndex]
  by_cases hp : pat = []
  · rw [if_pos hp, if_pos (by rw [hp]; rfl)]
  · rw [if_neg hp, if_neg ?_]
    intro hpre
    exact hp (List.prefix_nil.1 (List.isPrefixOf_iff_prefix.1 hpre))

theorem stringsIndex_cons (c : Char) (rest pat : Str) :
    stringsIndex (c :: rest) pat =
      if pat.isPrefixOf (c :: rest) then some 0
      else (stringsIndex rest pat).map (· + 1) := by
  rw [stringsIndex]

theorem stringsIndex_eq_some_iff {l pat : Str} {n : Nat} :
    stringsIndex l pat = some n ↔
      occursAt pat l n ∧ ∀ m, m < n → ¬ occursAt pat l m := by
  induction l generalizing n with
  | nil =>
    rw [stringsIndex_nil]
    by_cases hp : pat = []
    · rw [if_pos hp]
      constructor
      · intro h
        have hn : n = 0 := by
          have := Option.some_inj.1 h
          omega
        subst hn
        exact ⟨by rw [hp]; exact List.nil_prefix, fun m hm => absurd hm (by omega)⟩
      · intro ⟨_, hmin⟩
        by_cases hn : n = 0
        · rw [hn]
        · exact absurd (show occursAt pat [] 0 by rw [hp]; exact List.nil_prefix) (hmin 0 (by omega))
    · rw [if_neg hp]
      constructor
      · intro h; exact Option.noConfusion h
      · intro ⟨hocc, _⟩
        exfalso
        unfold occursAt at hocc
        rw [List.drop_nil] at hocc
        exact hp (List.prefix_nil.1 hocc)
  | cons c rest ih =>
    rw [stringsIndex_cons]
    by_cases hpre : pat.isPrefixOf (c :: rest)
    · rw [if_pos hpre]
      constructor
      · intro h
        have hn : n = 0 := by
          have := Option.some_inj.1 h
          omega
        subst hn
        exact ⟨List.isPrefixOf_iff_prefix.1 hpre,
          fun m hm => absurd hm (by omega)⟩
      · intro ⟨_, hmin⟩
        by_cases hn : n = 0
        · rw [hn]
        · exact absurd (List.isPrefixOf_iff_prefix.1 hpre) (hmin 0 (by omega))
    · rw [if_neg hpre]
      constructor
      · intro h
        rw [Option.map_eq_some'] at h
        obtain ⟨n', hn', hmap⟩ := h
        obtain ⟨hocc, hmin⟩ := ih.1 hn'
        subst hmap
        refine ⟨hocc, ?_⟩
        intro m hm
        cases m with
        | zero =>
          intro hc
          exact hpre (List.isPrefixOf_iff_prefix.2 hc)
        | succ m' =>
          exact hmin m' (by omega)
      · intro ⟨hocc, hmin⟩
        cases n with
        | zero => exact absurd hocc (fun hc => hpre (List.isPrefixOf_iff_prefix.2 hc))
        | succ n' =>
          rw [Option.map_eq_some']
          refine ⟨n', ih.2 ⟨hocc, ?_⟩, rfl⟩
          intro m hm
          exact hmin (m + 1) (by omega)

theorem stringsIndex_eq_none_iff {l pat : Str} :
    stringsIndex l pat = none ↔ ∀ m, ¬ occursAt pat l m := by
  induction l with
  | nil =>
    rw [stringsIndex_nil]
    by_cases hp : pat = []
    · rw [if_pos hp]
      constructor
      · intro h; exact Option.noConfusion h
      · intro h
        exact absurd (show occursAt pat [] 0 by rw [hp]; exact List.nil_prefix) (h 0)
    · rw [if_neg hp]
      refine ⟨fun _ m hocc => ?_, fun _ => rfl⟩
      unfold occursAt at hocc
      rw [List.drop_nil] at hocc
      exact hp (List.prefix_nil.1 hocc)
  | cons c rest ih =>
    rw [stringsIndex_cons]
    by_cases hpre : pat.isPrefixOf (c :: rest)
    · rw [if_pos hpre]
      refine ⟨fun h => Option.noConfusion h, fun h => ?_⟩
      exact absurd (List.isPrefixOf_iff_prefix.1 hpre) (h 0)
    · rw [if_neg hpre]
      rw [Option.map_eq_none', ih]
      constructor
      · intro h m
        cases m with
        | zero => exact fun hc => hpre (List.isPrefixOf_iff_prefix.2 hc)
        | succ m' => exact h m'
      · intro h m
        exact h (m + 1)

/-! ### Scanner lemmas: `scanString` -/

theorem scanStrAux_ok_bounds :
    ∀ {rest acc : Str} {i : Nat} {esc : Bool} {tok : Str} {e : Nat},
      scanStrAux acc i esc rest = .ok (tok, e) → i ≤ e ∧ e < i + rest.length := by
  intro rest
  induction rest with
  | nil =>
    intro acc i esc tok e h
    rw [scanStrAux] at h
    exact Except.noConfusion h
  | cons c rest' ih =>
    intro acc i esc tok e h
    rw [scanStrAux] at h
    by_cases hesc : esc = true
    · rw [if_pos hesc] at h
      have := ih h
      constructor <;> [omega; (simp only [List.length_cons]; omega)]
    · rw [if_neg hesc] at h
      by_cases hbs : c = '\\'
      · rw [if_pos hbs] at h
        have := ih h
        constructor <;> [omega; (simp only [List.length_cons]; omega)]
      · rw [if_neg hbs] at h
        by_cases hq : c = '"'
        · rw [if_pos hq] at h
          have he : e = i := by
            have := Except.ok.inj h
            exact (Prod.mk.injEq _ _ _ _ ▸ this).2.symm ▸ rfl
          subst he
          constructor
          · exact Nat.le_refl _
          · simp only [List.length_cons]; omega
        · rw [if_neg hq] at h
          have := ih h
          constructor <;> [omega; (simp only [List.length_cons]; omega)]

theorem scanString_ok {contents : Str} {start : Nat} {tok : Str} {e : Nat}
    (h : scanString contents start = .ok (tok, e)) :
    start + 1 ≤ e ∧ e < contents.length ∧ contents[start]? = some '"' := by
  unfold scanString at h
  by_cases hq : contents[start]? = some '"'
  · rw [if_pos hq] at h
    have hb := scanStrAux_ok_bounds h
    have hstart : start < contents.length := by
      by_contra hc
      rw [List.getElem?_eq_none (by omega)] at hq
      exact Option.noConfusion hq
    have hlen : (contents.drop (start + 1)).length =
        contents.length - (start + 1) := by
      rw [List.length_drop]
    refine ⟨hb.1, ?_, hq⟩
    omega
  · rw [if_neg hq] at h
    exact Except.noConfusion h

/-- Escaped string bodies as Go's scanner sees them: no bare quote, every
backslash taken with its next character. -/
inductive EscOk : Str → Prop
  | nil : EscOk []
  | chr {c : Char} {rest : Str} :
      c ≠ '"' → c ≠ '\\' → EscOk rest → EscOk (c :: rest)
  | esc {c : Char} {rest : Str} : EscOk rest → EscOk ('\\' :: c :: rest)

theorem escOk_of_forall {l : Str} (h : ∀ c ∈ l, c ≠ '"' ∧ c ≠ '\\') :
    EscOk l := by
  induction l with
  | nil => exact EscOk.nil
  | cons c rest ih =>
    exact EscOk.chr (h c (by simp)).1 (h c (by simp)).2
      (ih (fun d hd => h d (List.mem_cons_of_mem _ hd)))

/-- Scanning a well-escaped body consumes it whole and stops at the closing
quote. -/
theorem scanStrAux_escOk {body : Str} (h : EscOk body) :
    ∀ (acc : Str) (i : Nat) (rest : Str),
      scanStrAux acc i false (body ++ '"' :: rest) =
        .ok (acc ++ body, i + body.length) := by
  induction h with
  | nil =>
    intro acc i rest
    rw [List.nil_append, scanStrAux]
    simp
  | chr hq hbs _ ih =>
    intro acc i rest
    rw [List.cons_append, scanStrAux, if_neg (by simp), if_neg hbs, if_neg hq,
      ih (acc ++ [_]) (i + 1) rest]
    simp only [List.append_assoc, List.singleton_append, List.length_cons]
    rw [Except.ok.injEq, Prod.mk.injEq]
    exact ⟨by simp, by omega⟩
  | esc _ ih =>
    intro acc i rest
    rw [List.cons_append, scanStrAux, if_neg (by simp), if_pos rfl,
      List.cons_append, scanStrAux, if_pos rfl,
      ih (acc ++ ['\\'] ++ [_]) (i + 2) rest]
    simp only [List.append_assoc, List.singleton_append, List.length_cons]
    rw [Except.ok.injEq, Prod.mk.injEq]
    exact ⟨by simp, by omega⟩

theorem getElem?_append_self {α : Type} (pre : List α) (c : α) (l : List α) :
    (pre ++ c :: l)[pre.length]? = some c := by
  rw [List.getElem?_append, if_neg (by omega)]
  simp

/-- `scanString` at the opening quote of a well-escaped literal. -/
theorem scanString_quoted {pre body rest : Str} (h : EscOk body) :
    scanString (pre ++ ('"' :: (body ++ '"' :: rest))) pre.length =
      .ok (body, pre.length + 1 + body.length) := by
  unfold scanString
  rw [if_pos (getElem?_append_self pre '"' (body ++ '"' :: rest))]
  have hdrop : (pre ++ ('"' :: (body ++ '"' :: rest))).drop (pre.length + 1) =
      body ++ '"' :: rest := by
    rw [show pre ++ ('"' :: (body ++ '"' :: rest)) =
        (pre ++ ['"']) ++ (body ++ '"' :: rest) by simp,
      show pre.length + 1 = (pre ++ ['"']).length by simp]
    exact List.drop_left _ _
  rw [hdrop, scanStrAux_escOk h [] (pre.length + 1) rest]
  simp

/-! ### The depth-counting walk: the specification of `findMatchingDelimiter`

`Walk op cl d seg d'` means: processing `seg` by depth counting, starting at
depth `d ≥ 1`, every string literal skipped as one unit, never letting the
depth return to zero inside `seg`, ends at depth `d'`. -/

inductive Walk (op cl : Char) : Int → Str → Int → Prop
  | nil {d : Int} : Walk op cl d [] d
  | chr {c : Char} {d d' : Int} {rest : Str} :
      c ≠ '"' → c ≠ op → c ≠ cl → Walk op cl d rest d' →
      Walk op cl d (c :: rest) d'
  | opn {d d' : Int} {rest : Str} :
      Walk op cl (d + 1) rest d' → Walk op cl d (op :: rest) d'
  | cls {d d' : Int} {rest : Str} :
      2 ≤ d → Walk op cl (d - 1) rest d' → Walk op cl d (cl :: rest) d'
  | strTok {body : Str} {d d' : Int} {rest : Str} :
      EscOk body → Walk op cl d rest d' →
      Walk op cl d ('"' :: (body ++ '"' :: rest)) d'

theorem Walk.append {op cl : Char} {a : Str} {d d₁ : Int}
    (w₁ : Walk op cl d a d₁) :
    ∀ {b : Str} {d₂ : Int}, Walk op cl d₁ b d₂ → Walk op cl d (a ++ b) d₂ := by
  induction w₁ with
  | nil => intro b d₂ w₂; exact w₂
  | chr hq hop hcl _ ih => intro b d₂ w₂; exact Walk.chr hq hop hcl (ih w₂)
  | opn _ ih => intro b d₂ w₂; exact Walk.opn (ih w₂)
  | cls hd _ ih => intro b d₂ w₂; exact Walk.cls hd (ih w₂)
  | strTok hesc _ ih =>
    intro b d₂ w₂
    have hres := Walk.strTok hesc (ih w₂)
    simpa using hres

theorem Walk.neutral {op cl : Char} {l : Str}
    (h : ∀ c ∈ l, c ≠ '"' ∧ c ≠ op ∧ c ≠ cl) (d : Int) : Walk op cl d l d := by
  induction l with
  | nil => exact Walk.nil
  | cons c rest ih =>
    exact Walk.chr (h c (by simp)).1 (h c (by simp)).2.1 (h c (by simp)).2.2
      (ih (fun d hd => h d (List.mem_cons_of_mem _ hd)))

theorem Walk.quoted {op cl : Char}
    {body : Str} (h : EscOk body) (d : Int) :
    Walk op cl d ('"' :: (body ++ ['"'])) d := by
  have heq : ('"' :: (body ++ ['"']) : Str) = '"' :: (body ++ '"' :: []) := by simp
  rw [heq]
  exact Walk.strTok h Walk.nil

/-! ### Fuel handling for `findMDLoop` -/

theorem findMDLoop_succ_none {contents : Str} {op cl : Char} {fuel i : Nat}
    {d : Int} (h : contents[i]? = none) :
    findMDLoop contents op cl (fuel + 1) i d = .error .unterminatedDelim := by
  rw [findMDLoop, h]

theorem findMDLoop_succ_some {contents : Str} {op cl : Char} {fuel i : Nat}
    {d : Int} {c : Char} (h : contents[i]? = some c) :
    findMDLoop contents op cl (fuel + 1) i d =
      if c = '"' then
        match scanString contents i with
        | .error e => .error e
        | .ok (_, strEnd) => findMDLoop contents op cl fuel (strEnd + 1) d
      else if c = op then findMDLoop contents op cl fuel (i + 1) (d + 1)
      else if c = cl then
        if d - 1 = 0 then .ok i
        else findMDLoop contents op cl fuel (i + 1) (d - 1)
      else findMDLoop contents op cl fuel (i + 1) d := by
  rw [findMDLoop, h]

theorem findMDLoop_fuel_congr (contents : Str) (op cl : Char) :
    ∀ (f₁ f₂ i : Nat) (d : Int), i ≤ contents.length →
      contents.length + 1 - i ≤ f₁ → contents.length + 1 - i ≤ f₂ →
      findMDLoop contents op cl f₁ i d = findMDLoop contents op cl f₂ i d := by
  intro f₁
  induction f₁ with
  | zero =>
    intro f₂ i d hi h1 _
    exact absurd h1 (by omega)
  | succ f ih =>
    intro f₂ i d hi h1 h2
    cases f₂ with
    | zero => exact absurd h2 (by omega)
    | succ g =>
      cases hget : contents[i]? with
      | none =>
        rw [findMDLoop_succ_none hget, findMDLoop_succ_none hget]
      | some c =>
        rw [findMDLoop_succ_some hget, findMDLoop_succ_some hget]
        have hlt : i < contents.length := by
          by_contra hc
          rw [List.getElem?_eq_none (by omega)] at hget
          exact Option.noConfusion hget
        by_cases hq : c = '"'
        · rw [if_pos hq, if_pos hq]
          cases hscan : scanString contents i with
          | error e => simp only [hscan]
          | ok pr =>
            obtain ⟨tok, strEnd⟩ := pr
            have hb := scanString_ok hscan
            simp only [hscan]
            exact ih g (strEnd + 1) d (by omega) (by omega) (by omega)
        · rw [if_neg hq, if_neg hq]
          by_cases hop : c = op
          · rw [if_pos hop, if_pos hop]
            exact ih g (i + 1) (d + 1) (by omega) (by omega) (by omega)
          · rw [if_neg hop, if_neg hop]
            by_cases hcl : c = cl
            · rw [if_pos hcl, if_pos hcl]
              by_cases hd : d - 1 = 0
              · rw [if_pos hd, if_pos hd]
              · rw [if_neg hd, if_neg hd]
                exact ih g (i + 1) (d - 1) (by omega) (by omega) (by omega)
            · rw [if_neg hcl, if_neg hcl]
              exact ih g (i + 1) d (by omega) (by omega) (by omega)

/-- The loop at its canonical fuel. -/
def findMDRun (contents : Str) (op cl : Char) (i : Nat) (d : Int) :
    Except GoErr Nat :=
  findMDLoop contents op cl (contents.length + 1) i d

theorem findMDRun_step {contents : Str} {op cl : Char} {i : Nat} {d : Int}
    {c : Char} (h : contents[i]? = some c) (hi : i < contents.length) :
    findMDRun contents op cl i d =
      if c = '"' then
        match scanString contents i with
        | .error e => .error e
        | .ok (_, strEnd) =>
          if strEnd + 1 ≤ contents.length then
            findMDRun contents op cl (strEnd + 1) d
          else findMDLoop contents op cl contents.length (strEnd + 1) d
      else if c = op then findMDRun contents op cl (i + 1) (d + 1)
      else if c = cl then
        if d - 1 = 0 then .ok i
        else findMDRun contents op cl (i + 1) (d - 1)
      else findMDRun contents op cl (i + 1) d := by
  unfold findMDRun
  rw [show contents.length + 1 = contents.length + 1 by rfl]
  rw [findMDLoop_succ_some h]
  by_cases hq : c = '"'
  · rw [if_pos hq, if_pos hq]
    cases hscan : scanString contents i with
    | error e => simp only [hscan]
    | ok pr =>
      obtain ⟨tok, strEnd⟩ := pr
      have hb := scanString_ok hscan
      simp only [hscan]
      rw [if_pos (by omega)]
      exact findMDLoop_fuel_congr contents op cl contents.length
        (contents.length + 1) (strEnd + 1) d (by omega) (by omega) (by omega)
  · rw [if_neg hq, if_neg hq]
    by_cases hop : c = op
    · rw [if_pos hop, if_pos hop]
      exact findMDLoop_fuel_congr contents op cl contents.length
        (contents.length + 1) (i + 1) (d + 1) (by omega) (by omega) (by omega)
    · rw [if_neg hop, if_neg hop]
      by_cases hcl : c = cl
      · rw [if_pos hcl, if_pos hcl]
        by_cases hd : d - 1 = 0
        · rw [if_pos hd, if_pos hd]
        · rw [if_neg hd, if_neg hd]
          exact findMDLoop_fuel_congr contents op cl contents.length
            (contents.length + 1) (i + 1) (d - 1) (by omega) (by omega) (by omega)
      · rw [if_neg hcl, if_neg hcl]
        exact findMDLoop_fuel_congr contents op cl contents.length
          (contents.length + 1) (i + 1) d (by omega) (by omega) (by omega)

/-- The delimiter loop realizes the depth-counting walk: processing a
segment whose walk never returns the depth to zero moves the scan across the
segment, updating the depth as the walk does. -/
theorem walk_sim {op cl : Char} (hopq : op ≠ '"') (hclq : cl ≠ '"')
    (hoc : op ≠ cl) {d d' : Int} {seg : Str} (w : Walk op cl d seg d') :
    1 ≤ d → ∀ (pre post : Str),
      findMDRun (pre ++ (seg ++ post)) op cl pre.length d =
      findMDRun (pre ++ (seg ++ post)) op cl (pre.length + seg.length) d' := by
  induction w with
  | nil =>
    intro _ pre post
    simp
  | @chr c dd dd' rest hq hcop hccl _ ih =>
    intro hd pre post
    have hEq : pre ++ ((c :: rest) ++ post) = pre ++ c :: (rest ++ post) := by
      simp
    rw [hEq,
      findMDRun_step (getElem?_append_self pre c (rest ++ post)) (by simp),
      if_neg hq, if_neg hcop, if_neg hccl]
    have hEq2 : pre ++ c :: (rest ++ post) = (pre ++ [c]) ++ (rest ++ post) := by
      simp
    have hlen : pre.length + 1 = (pre ++ [c]).length := by simp
    rw [hEq2, hlen, ih hd (pre ++ [c]) post,
      show (pre ++ [c]).length + rest.length = pre.length + (c :: rest).length by
        simp only [List.length_append, List.length_cons, List.length_nil]
        omega]
  | @opn dd dd' rest _ ih =>
    intro hd pre post
    have hEq : pre ++ ((op :: rest) ++ post) = pre ++ op :: (rest ++ post) := by
      simp
    rw [hEq,
      findMDRun_step (getElem?_append_self pre op (rest ++ post)) (by simp),
      if_neg hopq, if_pos rfl]
    have hEq2 : pre ++ op :: (rest ++ post) = (pre ++ [op]) ++ (rest ++ post) := by
      simp
    have hlen : pre.length + 1 = (pre ++ [op]).length := by simp
    rw [hEq2, hlen, ih (by omega) (pre ++ [op]) post,
      show (pre ++ [op]).length + rest.length = pre.length + (op :: rest).length by
        simp only [List.length_append, List.length_cons, List.length_nil]
        omega]
  | @cls dd dd' rest hd2 _ ih =>
    intro hd pre post
    have hEq : pre ++ ((cl :: rest) ++ post) = pre ++ cl :: (rest ++ post) := by
      simp
    rw [hEq,
      findMDRun_step (getElem?_append_self pre cl (rest ++ post)) (by simp),
      if_neg hclq, if_neg (fun h => hoc h.symm), if_pos rfl,
      if_neg (by omega)]
    have hEq2 : pre ++ cl :: (rest ++ post) = (pre ++ [cl]) ++ (rest ++ post) := by
      simp
    have hlen : pre.length + 1 = (pre ++ [cl]).length := by simp
    rw [hEq2, hlen, ih (by omega) (pre ++ [cl]) post,
      show (pre ++ [cl]).length + rest.length = pre.length + (cl :: rest).length by
        simp only [List.length_append, List.length_cons, List.length_nil]
        omega]
  | @strTok body dd dd' rest hesc _ ih =>
    intro hd pre post
    have hEq : pre ++ (('"' :: (body ++ '"' :: rest)) ++ post) =
        pre ++ '"' :: (body ++ '"' :: (rest ++ post)) := by
      simp
    rw [hEq,
      findMDRun_step
        (getElem?_append_self pre '"' (body ++ '"' :: (rest ++ post)))
        (by simp),
      if_pos rfl]
    have hscan := @scanString_quoted pre body (rest ++ post) hesc
    simp only [hscan]
    have hlen2 : pre.length + 1 + body.length + 1 ≤
        (pre ++ '"' :: (body ++ '"' :: (rest ++ post))).length := by
      simp only [List.length_append, List.length_cons]
      omega
    rw [if_pos hlen2]
    have hEq2 : pre ++ '"' :: (body ++ '"' :: (rest ++ post)) =
        (pre ++ '"' :: (body ++ ['"'])) ++ (rest ++ post) := by
      simp
    have hlen3 : pre.length + 1 + body.length + 1 =
        (pre ++ '"' :: (body ++ ['"'])).length := by
      simp only [List.length_append, List.length_cons, List.length_nil]
      omega
    rw [hEq2, hlen3, ih hd (pre ++ '"' :: (body ++ ['"'])) post,
      show (pre ++ '"' :: (body ++ ['"'])).length + rest.length =
          pre.length + ('"' :: (body ++ '"' :: rest)).length by
        simp only [List.length_append, List.length_cons, List.length_nil]
        omega]

/-- Claim C5 (amended): `matchDelimiter` performs depth counting in which
strings are skipped as units (characters inside string literals never affect
the depth).  If the segment after the opening delimiter walks at depth ≥ 1
back to depth 1 and is followed by the closing delimiter, that close's
position is returned; if the text ends after such a segment without the
depth returning to zero, the error is `UnterminatedDelimiter` — provided
every string literal encountered is terminated (an unterminated string
yields `UnterminatedString` instead; see the counterexample). -/
theorem matchDelimiter_walk_spec :
    ∀ (op cl : Char) (pre inner post : Str) (d' : Int),
      op ≠ '"' → cl ≠ '"' → op ≠ cl →
      (Walk op cl 1 inner 1 →
        findMatchingDelimiter (pre ++ op :: (inner ++ cl :: post))
            pre.length op cl =
          .ok (pre.length + 1 + inner.length)) ∧
      (Walk op cl 1 inner d' →
        findMatchingDelimiter (pre ++ op :: inner) pre.length op cl =
          .error .unterminatedDelim) := by
  intro op cl pre inner post d' hopq hclq hoc
  constructor
  · intro w
    unfold findMatchingDelimiter
    rw [if_pos (getElem?_append_self pre op (inner ++ cl :: post))]
    have hrun : findMDLoop (pre ++ op :: (inner ++ cl :: post)) op cl
        ((pre ++ op :: (inner ++ cl :: post)).length + 1) pre.length 0 =
        findMDRun (pre ++ op :: (inner ++ cl :: post)) op cl pre.length 0 := rfl
    rw [hrun,
      findMDRun_step (getElem?_append_self pre op (inner ++ cl :: post))
        (by simp),
      if_neg hopq, if_pos rfl]
    have hEq2 : pre ++ op :: (inner ++ cl :: post) =
        (pre ++ [op]) ++ (inner ++ cl :: post) := by simp
    have hlen : pre.length + 1 = (pre ++ [op]).length := by simp
    rw [hEq2, hlen, show (0 : Int) + 1 = 1 from by norm_num,
      walk_sim hopq hclq hoc w (by omega) (pre ++ [op]) (cl :: post)]
    have hEq3 : (pre ++ [op]) ++ (inner ++ cl :: post) =
        ((pre ++ [op]) ++ inner) ++ cl :: post := by simp
    have hlen2 : (pre ++ [op]).length + inner.length =
        ((pre ++ [op]) ++ inner).length := by
      simp only [List.length_append, List.length_cons, List.length_nil]
    rw [hEq3, hlen2,
      findMDRun_step (getElem?_append_self ((pre ++ [op]) ++ inner) cl post)
        (by simp),
      if_neg hclq, if_neg (fun h => hoc h.symm), if_pos rfl,
      if_pos (by norm_num)]
  · intro w
    unfold findMatchingDelimiter
    rw [if_pos (getElem?_append_self pre op inner)]
    have hrun : findMDLoop (pre ++ op :: inner) op cl
        ((pre ++ op :: inner).length + 1) pre.length 0 =
        findMDRun (pre ++ op :: inner) op cl pre.length 0 := rfl
    rw [hrun]
    have hEqn : pre ++ op :: inner = pre ++ op :: (inner ++ []) := by simp
    rw [hEqn,
      findMDRun_step (getElem?_append_self pre op (inner ++ [])) (by simp),
      if_neg hopq, if_pos rfl]
    have hEq2 : pre ++ op :: (inner ++ []) = (pre ++ [op]) ++ (inner ++ []) := by
      simp
    have hlen : pre.length + 1 = (pre ++ [op]).length := by simp
    rw [hEq2, hlen, show (0 : Int) + 1 = 1 from by norm_num,
      walk_sim hopq hclq hoc w (by omega) (pre ++ [op]) []]
    unfold findMDRun
    exact findMDLoop_succ_none
      (List.getElem?_eq_none
        (by simp only [List.length_append, List.length_cons, List.length_nil]
            omega))

/-- Counterexample for C5 as stated: at `{"a` there is no matching close,
but the failure is `UnterminatedString` (propagated from the string
scanner), not `UnterminatedDelimiter`. -/
theorem matchDelimiter_unterminatedString_counterexample :
    findMatchingDelimiter (str "\x7b\"a") 0 '{' '}' =
      .error .unterminatedString := by
  decide

/-- Witness for C5: a string literal containing both delimiters (`{"a}{"}`):
the braces inside the string do not affect the depth and the final `}` is
matched at position 6. -/
theorem matchDelimiter_walk_spec_witness :
    findMatchingDelimiter (str "\x7b\"a\x7d\x7b\"\x7d") 0 '{' '}' =
      .ok 6 := by
  have hesc : EscOk (str "a\x7d\x7b") := escOk_of_forall (by decide)
  have hw : Walk '{' '}' 1 ('"' :: (str "a\x7d\x7b" ++ '"' :: [])) 1 :=
    Walk.strTok hesc Walk.nil
  have h := (matchDelimiter_walk_spec '{' '}' []
      ('"' :: (str "a\x7d\x7b" ++ '"' :: [])) [] 1
      (by decide) (by decide) (by decide)).1 hw
  exact h

/-! ### The marker strategy: claims C2 and C3 -/

theorem trimSpace_eq_nil_iff {l : Str} :
    trimSpace l = [] ↔ ∀ c ∈ l, isGoSpace c := by
  unfold trimSpace
  rw [List.reverse_eq_nil_iff, List.dropWhile_eq_nil_iff]
  constructor
  · intro h c hc
    rw [← List.takeWhile_append_dropWhile isGoSpace l] at hc
    rcases List.mem_append.1 hc with hc | hc
    · exact List.mem_takeWhile_imp hc
    · exact h c (List.mem_reverse.2 hc)
  · intro h c hc
    exact h c ((List.dropWhile_sublist _).subset (List.mem_reverse.1 hc))

/-- `lineIndent` in terms of the unchecked `lineIndentForPos`. -/
theorem lineIndent_eq (contents : Str) (pos : Nat) :
    lineIndent contents pos =
      if (lineIndentForPos contents pos).all isGoSpace then
        .ok (lineIndentForPos contents pos)
      else .error .markerNotAlone := by
  unfold lineIndent lineIndentForPos
  by_cases h : ((contents.take pos).drop (lineStart (contents.take pos))).all
      isGoSpace
  · rw [if_pos h, if_neg (not_not_intro (trimSpace_eq_nil_iff.2
      (fun c hc => List.all_eq_true.1 h c hc)))]
  · rw [if_neg h, if_pos (fun heq =>
      h (List.all_eq_true.2 (fun c hc => trimSpace_eq_nil_iff.1 heq c hc)))]

/-- The total value of `permissionsLines` (which never fails). -/
def permLines (p : ClaudePermissions) : List Str :=
  (((splitNl (marshalIndentPermissions p)).drop 1).take
    ((splitNl (marshalIndentPermissions p)).length - 2)).map
    (fun line => if (str "  ").isPrefixOf line then line.drop 2 else line)

theorem splitNl_ne_nil (l : Str) : splitNl l ≠ [] := by
  induction l with
  | nil => simp [splitNl]
  | cons c rest ih =>
    unfold splitNl
    by_cases hc : c = '\n'
    · rw [if_pos hc]; simp
    · rw [if_neg hc]
      cases hs : splitNl rest with
      | nil => simp
      | cons l ls => simp

theorem splitNl_cons_nl (rest : Str) :
    splitNl ('\n' :: rest) = [] :: splitNl rest := by
  conv_lhs => rw [splitNl]
  rw [if_pos rfl]

theorem splitNl_cons_ne {c : Char} (hc : c ≠ '\n') (rest : Str) :
    ∃ l ls, splitNl (c :: rest) = (c :: l) :: ls ∧ splitNl rest = l :: ls := by
  cases hs : splitNl rest with
  | nil => exact absurd hs (splitNl_ne_nil rest)
  | cons l ls =>
    refine ⟨l, ls, ?_, rfl⟩
    conv_lhs => rw [splitNl]
    rw [if_neg hc, hs]

theorem splitNl_length_ge_two_of_mem {l : Str} (h : '\n' ∈ l) :
    2 ≤ (splitNl l).length := by
  induction l with
  | nil => simp at h
  | cons c rest ih =>
    by_cases hc : c = '\n'
    · rw [hc, splitNl_cons_nl]
      have hpos : 0 < (splitNl rest).length :=
        List.length_pos.2 (splitNl_ne_nil rest)
      simp only [List.length_cons]
      omega
    · obtain ⟨l', ls, hcons, hrest⟩ := splitNl_cons_ne hc rest
      rw [hcons]
      have h' : '\n' ∈ rest := by
        rcases List.mem_cons.1 h with h | h
        · exact absurd h.symm hc
        · exact h
      have := ih h'
      rw [hrest] at this
      simpa using this

theorem splitNl_marshal_length (p : ClaudePermissions) :
    2 ≤ (splitNl (marshalIndentPermissions p)).length := by
  apply splitNl_length_ge_two_of_mem
  unfold marshalIndentPermissions marshalInner
  simp [str]

theorem permissionsLines_eq (p : ClaudePermissions) :
    permissionsLines p = .ok (permLines p) := by
  unfold permissionsLines innerJSONLines permLines
  rw [if_neg (by have := splitNl_marshal_length p; omega)]

theorem replaceWithMarkers_eq (contents : Str) (p : ClaudePermissions)
    (s e : Nat) :
    replaceWithMarkers contents p s e =
      replaceBlockWithLines contents s e (permLines p) := by
  unfold replaceWithMarkers
  rw [permissionsLines_eq]

theorem replaceBlockWithLines_ok {contents : Str} {s : Nat} {indent : Str}
    (e : Nat) (lines : List Str) (h : lineIndent contents s = .ok indent) :
    replaceBlockWithLines contents s e lines =
      .ok (contents.take s ++ startMarker ++ '\n' ::
        (List.intercalate ['\n'] (lines.map (fun line => indent ++ line)) ++
          '\n' :: indent ++ endMarker) ++
        contents.drop (e + endMarker.length)) := by
  unfold replaceBlockWithLines
  rw [h]

theorem replaceBlockWithLines_err {contents : Str} {s : Nat}
    (e : Nat) (lines : List Str)
    (h : lineIndent contents s = .error .markerNotAlone) :
    replaceBlockWithLines contents s e lines = .error .markerNotAlone := by
  unfold replaceBlockWithLines
  rw [h]

/-- Dispatch of `replacePermissionsBlock` when the marker strategy is
active. -/
theorem replacePermissionsBlock_markers {contents : Str}
    {p : ClaudePermissions} {s e : Nat}
    (hs : stringsIndex contents startMarker = some s)
    (he : stringsIndex contents endMarker = some e) (hlt : s < e) :
    replacePermissionsBlock contents p = replaceWithMarkers contents p s e := by
  unfold replacePermissionsBlock
  rw [hs, he]
  exact if_pos hlt

/-- Dispatch of `replacePermissionsBlock` when both markers occur but not in
valid order. -/
theorem replacePermissionsBlock_invalidOrder {contents : Str}
    {p : ClaudePermissions} {s e : Nat}
    (hs : stringsIndex contents startMarker = some s)
    (he : stringsIndex contents endMarker = some e) (hlt : ¬ s < e) :
    replacePermissionsBlock contents p = replacePermissionsJSON contents p := by
  unfold replacePermissionsBlock
  rw [hs, he]
  exact if_neg hlt

theorem replaceOpencodePermissions_invalidOrder {contents json : Str}
    {lines : List Str} {s e : Nat}
    (hs : stringsIndex contents startMarker = some s)
    (he : stringsIndex contents endMarker = some e) (hlt : ¬ s < e) :
    replaceOpencodePermissions contents json lines =
      replaceOpencodePermissionsJSON contents json := by
  unfold replaceOpencodePermissions
  rw [hs, he]
  exact if_neg hlt

theorem replacePermissionsJSON_ok {contents : Str} {p : ClaudePermissions}
    {keyPos objStart objEnd : Nat}
    (h : findObjectForKey contents (str "permissions") =
      .ok (keyPos, objStart, objEnd)) :
    replacePermissionsJSON contents p =
      .ok (contents.take objStart ++
        indentMultilineValue (marshalIndentPermissions p)
          (lineIndentForPos contents keyPos) ++
        contents.drop (objEnd + 1)) := by
  unfold replacePermissionsJSON
  rw [h]

/-- Claim C2 (amended): with the marker strategy active, the splice fails
with `MarkerNotAlone` exactly when the segment of the start marker's line
*before* the marker contains a non-whitespace character; when that segment
is pure whitespace it is captured as the shared indentation of the spliced
block.  (Content *after* the marker on the same line is not checked: it lies
inside the replaced region and is silently replaced — see the
counterexample.) -/
theorem markerNotAlone_prefix_only :
    ∀ (contents : Str) (p : ClaudePermissions) (s e : Nat),
      stringsIndex contents startMarker = some s →
      stringsIndex contents endMarker = some e → s < e →
      (¬ (lineIndentForPos contents s).all isGoSpace →
        replacePermissionsBlock contents p = .error .markerNotAlone) ∧
      ((lineIndentForPos contents s).all isGoSpace →
        replacePermissionsBlock contents p =
          .ok (contents.take s ++ startMarker ++ '\n' ::
            (List.intercalate ['\n']
              ((permLines p).map
                (fun line => lineIndentForPos contents s ++ line)) ++
              '\n' :: lineIndentForPos contents s ++ endMarker) ++
            contents.drop (e + endMarker.length))) := by
  intro contents p s e hs he hlt
  constructor
  · intro hall
    rw [replacePermissionsBlock_markers hs he hlt, replaceWithMarkers_eq]
    apply replaceBlockWithLines_err
    rw [lineIndent_eq, if_neg hall]
  · intro hall
    rw [replacePermissionsBlock_markers hs he hlt, replaceWithMarkers_eq]
    apply replaceBlockWithLines_ok
    rw [lineIndent_eq, if_pos hall]

/-- Counterexample for C2 as stated: `trailing` follows the start marker on
its line, yet the splice succeeds instead of failing with `MarkerNotAlone`
(the trailing text is silently replaced along with the block). -/
theorem markerTrailingText_counterexample :
    (replacePermissionsBlock
      (startMarker ++ str " trailing\n" ++ endMarker)
      ⟨[], [], [], []⟩).isOk = true := by
  decide

/-- Witness for C2: markers with a two-space indent; the error case is shown
for a text whose marker line carries a leading `x`. -/
theorem markerNotAlone_prefix_only_witness :
    ((¬ (lineIndentForPos (str "x" ++ startMarker ++ str "\n" ++ endMarker) 1).all
          isGoSpace →
        replacePermissionsBlock (str "x" ++ startMarker ++ str "\n" ++ endMarker)
            ⟨[], [], [], []⟩ = .error .markerNotAlone) ∧
      ((lineIndentForPos (str "x" ++ startMarker ++ str "\n" ++ endMarker) 1).all
          isGoSpace →
        replacePermissionsBlock (str "x" ++ startMarker ++ str "\n" ++ endMarker)
            ⟨[], [], [], []⟩ =
          .ok ((str "x" ++ startMarker ++ str "\n" ++ endMarker).take 1 ++
            startMarker ++ '\n' ::
            (List.intercalate ['\n']
              ((permLines ⟨[], [], [], []⟩).map
                (fun line =>
                  lineIndentForPos (str "x" ++ startMarker ++ str "\n" ++ endMarker)
                    1 ++ line)) ++
              '\n' :: lineIndentForPos
                  (str "x" ++ startMarker ++ str "\n" ++ endMarker) 1 ++
                endMarker) ++
            (str "x" ++ startMarker ++ str "\n" ++ endMarker).drop
              (29 + endMarker.length)))) :=
  markerNotAlone_prefix_only (str "x" ++ startMarker ++ str "\n" ++ endMarker)
    ⟨[], [], [], []⟩ 1 29 (by decide) (by decide) (by decide)

/-- Claim C3 (amended): when both markers occur but the start marker is not
strictly before the end marker, the splice does not fail on marker order: it
falls back to the structural JSON strategy (for both the claude and the
opencode splicers), and in particular *succeeds* whenever a `permissions`
object is located. -/
theorem invalidMarkerOrder_fallback :
    ∀ (contents : Str) (p : ClaudePermissions) (json : Str)
      (lines : List Str) (s e : Nat),
      stringsIndex contents startMarker = some s →
      stringsIndex contents endMarker = some e → ¬ s < e →
      replacePermissionsBlock contents p = replacePermissionsJSON contents p ∧
      replaceOpencodePermissions contents json lines =
        replaceOpencodePermissionsJSON contents json ∧
      (∀ keyPos objStart objEnd : Nat,
        findObjectForKey contents (str "permissions") =
          .ok (keyPos, objStart, objEnd) →
        replacePermissionsBlock contents p =
          .ok (contents.take objStart ++
            indentMultilineValue (marshalIndentPermissions p)
              (lineIndentForPos contents keyPos) ++
            contents.drop (objEnd + 1))) := by
  intro contents p json lines s e hs he hlt
  refine ⟨replacePermissionsBlock_invalidOrder hs he hlt,
    replaceOpencodePermissions_invalidOrder hs he hlt, ?_⟩
  intro keyPos objStart objEnd hfind
  rw [replacePermissionsBlock_invalidOrder hs he hlt,
    replacePermissionsJSON_ok hfind]

/-- Counterexample for C3 as stated: the end marker precedes the start
marker, and the host also contains a `permissions` object, so the splice
*succeeds* (via the structural fallback) rather than failing with a
LocateError. -/
theorem invalidMarkerOrder_counterexample :
    stringsIndex (endMarker ++ startMarker ++ str "\x7b\"permissions\": \x7b\x7d\x7d")
        startMarker = some 25 ∧
    stringsIndex (endMarker ++ startMarker ++ str "\x7b\"permissions\": \x7b\x7d\x7d")
        endMarker = some 0 ∧
    (replacePermissionsBlock
      (endMarker ++ startMarker ++ str "\x7b\"permissions\": \x7b\x7d\x7d")
      ⟨[], [], [], []⟩).isOk = true := by
  refine ⟨by decide, by decide, by decide⟩

/-- Witness for C3: the fallback equalities at the counterexample's input. -/
theorem invalidMarkerOrder_fallback_witness :
    (replacePermissionsBlock
        (endMarker ++ startMarker ++ str "\x7b\"permissions\": \x7b\x7d\x7d")
        ⟨[], [], [], []⟩ =
      replacePermissionsJSON
        (endMarker ++ startMarker ++ str "\x7b\"permissions\": \x7b\x7d\x7d")
        ⟨[], [], [], []⟩) ∧
    (replaceOpencodePermissions
        (endMarker ++ startMarker ++ str "\x7b\"permissions\": \x7b\x7d\x7d")
        (str "x") [] =
      replaceOpencodePermissionsJSON
        (endMarker ++ startMarker ++ str "\x7b\"permissions\": \x7b\x7d\x7d")
        (str "x")) :=
  ⟨(invalidMarkerOrder_fallback
      (endMarker ++ startMarker ++ str "\x7b\"permissions\": \x7b\x7d\x7d")
      ⟨[], [], [], []⟩ (str "x") [] 25 0
      (by decide) (by decide) (by decide)).1,
    (invalidMarkerOrder_fallback
      (endMarker ++ startMarker ++ str "\x7b\"permissions\": \x7b\x7d\x7d")
      ⟨[], [], [], []⟩ (str "x") [] 25 0
      (by decide) (by decide) (by decide)).2.1⟩

/-! ### The key-search walk: the specification of `findKeyInRange` -/

/-- The committed tail of the `findKeyInRange` loop once a depth-1 token
equal to the key has been scanned: check for a colon and a value after
whitespace (`i` is the key quote position, `strEnd` the closing quote). -/
def commitAt (contents : Str) (i strEnd : Nat) : Except GoErr (Nat × Nat) :=
  let j := skipSpacesGo contents (strEnd + 1)
  if contents.length ≤ j ∨ contents[j]? ≠ some ':' then .error .missingColon
  else
    let j2 := skipSpacesGo contents (j + 1)
    if contents.length ≤ j2 then .error .missingValue
    else .ok (i, j2)

/-- Processing `seg` by the key-search loop starting at depth `d` scans the
whole segment without committing — no string literal in `seg` is reached at
depth 1 with raw contents equal to `key` — and ends at depth `d'`. -/
inductive KWalk (key : Str) : Int → Str → Int → Prop
  | nil {d : Int} : KWalk key d [] d
  | chr {c : Char} {d d' : Int} {rest : Str} :
      c ≠ '"' → c ≠ '\x7b' → c ≠ '\x7d' → KWalk key d rest d' →
      KWalk key d (c :: rest) d'
  | opn {d d' : Int} {rest : Str} :
      KWalk key (d + 1) rest d' → KWalk key d ('\x7b' :: rest) d'
  | cls {d d' : Int} {rest : Str} :
      KWalk key (d - 1) rest d' → KWalk key d ('\x7d' :: rest) d'
  | strTok {body : Str} {d d' : Int} {rest : Str} :
      EscOk body → ¬ (d = 1 ∧ body = key) → KWalk key d rest d' →
      KWalk key d ('"' :: (body ++ '"' :: rest)) d'

theorem findKeyLoop_exit {contents key : Str} {endIdx : Int} {fuel i : Nat}
    {d : Int} (hi : ¬ (i : Int) ≤ endIdx) :
    findKeyLoop contents key endIdx (fuel + 1) i d = .error .keyNotFound := by
  rw [findKeyLoop, if_neg hi]

theorem findKeyLoop_succ_none {contents key : Str} {endIdx : Int}
    {fuel i : Nat} {d : Int} (hi : (i : Int) ≤ endIdx)
    (hget : contents[i]? = none) :
    findKeyLoop contents key endIdx (fuel + 1) i d = .error .outOfFuel := by
  rw [findKeyLoop, if_pos hi, hget]

theorem findKeyLoop_succ {contents key : Str} {endIdx : Int} {fuel i : Nat}
    {d : Int} {c : Char} (hi : (i : Int) ≤ endIdx)
    (hget : contents[i]? = some c) :
    findKeyLoop contents key endIdx (fuel + 1) i d =
      (if c = '"' then
        match scanString contents i with
        | .error e => .error e
        | .ok (token, strEnd) =>
          if d = 1 ∧ token = key then commitAt contents i strEnd
          else findKeyLoop contents key endIdx fuel (strEnd + 1) d
      else if c = '\x7b' then
        findKeyLoop contents key endIdx fuel (i + 1) (d + 1)
      else if c = '\x7d' then
        findKeyLoop contents key endIdx fuel (i + 1) (d - 1)
      else findKeyLoop contents key endIdx fuel (i + 1) d) := by
  rw [findKeyLoop, if_pos hi, hget]
  rfl

theorem findKeyLoop_fuel_congr (contents key : Str) (endIdx : Int) :
    ∀ (f₁ f₂ i : Nat) (d : Int), i ≤ contents.length →
      contents.length + 1 - i ≤ f₁ → contents.length + 1 - i ≤ f₂ →
      findKeyLoop contents key endIdx f₁ i d =
        findKeyLoop contents key endIdx f₂ i d := by
  intro f₁
  induction f₁ with
  | zero =>
    intro f₂ i d hi h1 _
    exact absurd h1 (by omega)
  | succ f ih =>
    intro f₂ i d hi h1 h2
    cases f₂ with
    | zero => exact absurd h2 (by omega)
    | succ g =>
      by_cases hile : (i : Int) ≤ endIdx
      · cases hget : contents[i]? with
        | none =>
          rw [findKeyLoop_succ_none hile hget,
            findKeyLoop_succ_none hile hget]
        | some c =>
          have hlt : i < contents.length := by
            by_contra hcon
            rw [List.getElem?_eq_none (by omega)] at hget
            exact Option.noConfusion hget
          rw [findKeyLoop_succ hile hget, findKeyLoop_succ hile hget]
          by_cases hq : c = '"'
          · rw [if_pos hq, if_pos hq]
            cases hscan : scanString contents i with
            | error e => simp only [hscan]
            | ok pr =>
              obtain ⟨tok, strEnd⟩ := pr
              have hb := scanString_ok hscan
              simp only [hscan]
              by_cases hhit : d = 1 ∧ tok = key
              · rw [if_pos hhit, if_pos hhit]
              · rw [if_neg hhit, if_neg hhit]
                exact ih g (strEnd + 1) d (by omega) (by omega) (by omega)
          · rw [if_neg hq, if_neg hq]
            by_cases ho : c = '\x7b'
            · rw [if_pos ho, if_pos ho]
              exact ih g (i + 1) (d + 1) (by omega) (by omega) (by omega)
            · rw [if_neg ho, if_neg ho]
              by_cases hcl : c = '\x7d'
              · rw [if_pos hcl, if_pos hcl]
                exact ih g (i + 1) (d - 1) (by omega) (by omega) (by omega)
              · rw [if_neg hcl, if_neg hcl]
                exact ih g (i + 1) d (by omega) (by omega) (by omega)
      · rw [findKeyLoop_exit hile, findKeyLoop_exit hile]

/-- The key-search loop at its canonical fuel, over the whole document (the
range used by `findObjectForKey`). -/
def findKRun (contents key : Str) (i : Nat) (d : Int) :
    Except GoErr (Nat × Nat) :=
  findKeyLoop contents key ((contents.length : Int) - 1)
    (contents.length + 1) i d

theorem findKeyInRange_eq_findKRun (contents key : Str) :
    findKeyInRange contents 0 ((contents.length : Int) - 1) key =
      findKRun contents key 0 0 := rfl

theorem findKRun_exit {contents key : Str} {i : Nat} {d : Int}
    (hi : contents.length ≤ i) :
    findKRun contents key i d = .error .keyNotFound := by
  unfold findKRun
  exact findKeyLoop_exit (by omega)

theorem findKRun_step_chr {contents key : Str} {i : Nat} {d : Int} {c : Char}
    (hget : contents[i]? = some c) (hq : c ≠ '"') (ho : c ≠ '\x7b')
    (hcl : c ≠ '\x7d') :
    findKRun contents key i d = findKRun contents key (i + 1) d := by
  have hlt : i < contents.length := by
    by_contra hcon
    rw [List.getElem?_eq_none (by omega)] at hget
    exact Option.noConfusion hget
  unfold findKRun
  rw [findKeyLoop_succ (by omega) hget, if_neg hq, if_neg ho, if_neg hcl]
  exact findKeyLoop_fuel_congr contents key _ contents.length
    (contents.length + 1) (i + 1) d (by omega) (by omega) (by omega)

theorem findKRun_step_open {contents key : Str} {i : Nat} {d : Int}
    (hget : contents[i]? = some '\x7b') :
    findKRun contents key i d = findKRun contents key (i + 1) (d + 1) := by
  have hlt : i < contents.length := by
    by_contra hcon
    rw [List.getElem?_eq_none (by omega)] at hget
    exact Option.noConfusion hget
  unfold findKRun
  rw [findKeyLoop_succ (by omega) hget, if_neg (by decide), if_pos rfl]
  exact findKeyLoop_fuel_congr contents key _ contents.length
    (contents.length + 1) (i + 1) (d + 1) (by omega) (by omega) (by omega)

theorem findKRun_step_close {contents key : Str} {i : Nat} {d : Int}
    (hget : contents[i]? = some '\x7d') :
    findKRun contents key i d = findKRun contents key (i + 1) (d - 1) := by
  have hlt : i < contents.length := by
    by_contra hcon
    rw [List.getElem?_eq_none (by omega)] at hget
    exact Option.noConfusion hget
  unfold findKRun
  rw [findKeyLoop_succ (by omega) hget, if_neg (by decide),
    if_neg (by decide), if_pos rfl]
  exact findKeyLoop_fuel_congr contents key _ contents.length
    (contents.length + 1) (i + 1) (d - 1) (by omega) (by omega) (by omega)

theorem findKRun_step_str {contents key : Str} {i : Nat} {d : Int}
    {tok : Str} {strEnd : Nat} (hget : contents[i]? = some '"')
    (hscan : scanString contents i = .ok (tok, strEnd))
    (hmiss : ¬ (d = 1 ∧ tok = key)) :
    findKRun contents key i d = findKRun contents key (strEnd + 1) d := by
  have hb := scanString_ok hscan
  have hlt : i < contents.length := by
    by_contra hcon
    rw [List.getElem?_eq_none (by omega)] at hget
    exact Option.noConfusion hget
  unfold findKRun
  rw [findKeyLoop_succ (by omega) hget, if_pos rfl]
  simp only [hscan]
  rw [if_neg hmiss]
  exact findKeyLoop_fuel_congr contents key _ contents.length
    (contents.length + 1) (strEnd + 1) d (by omega) (by omega) (by omega)

theorem findKRun_step_hit {contents key : Str} {i : Nat}
    {tok : Str} {strEnd : Nat} (hget : contents[i]? = some '"')
    (hscan : scanString contents i = .ok (tok, strEnd)) (htok : tok = key) :
    findKRun contents key i 1 = commitAt contents i strEnd := by
  have hlt : i < contents.length := by
    by_contra hcon
    rw [List.getElem?_eq_none (by omega)] at hget
    exact Option.noConfusion hget
  unfold findKRun
  rw [findKeyLoop_succ (by omega) hget, if_pos rfl]
  simp only [hscan]
  rw [if_pos (by simp [htok])]

/-- The key-search loop realizes the walk: scanning a commit-free segment
moves the position across it, updating the depth as the walk does. -/
theorem kwalk_sim {key : Str} {d d' : Int} {seg : Str}
    (w : KWalk key d seg d') :
    ∀ (pre post : Str),
      findKRun (pre ++ (seg ++ post)) key pre.length d =
        findKRun (pre ++ (seg ++ post)) key (pre.length + seg.length) d' := by
  induction w with
  | nil =>
    intro pre post
    simp
  | @chr c dd dd' rest hq ho hcl _ ih =>
    intro pre post
    have hEq : pre ++ ((c :: rest) ++ post) = pre ++ c :: (rest ++ post) := by
      simp
    rw [hEq,
      findKRun_step_chr (getElem?_append_self pre c (rest ++ post)) hq ho hcl]
    have hEq2 : pre ++ c :: (rest ++ post) = (pre ++ [c]) ++ (rest ++ post) := by
      simp
    have hlen : pre.length + 1 = (pre ++ [c]).length := by simp
    rw [hEq2, hlen, ih (pre ++ [c]) post,
      show (pre ++ [c]).length + rest.length = pre.length + (c :: rest).length by
        simp only [List.length_append, List.length_cons, List.length_nil]
        omega]
  | @opn dd dd' rest _ ih =>
    intro pre post
    have hEq : pre ++ (('\x7b' :: rest) ++ post) =
        pre ++ '\x7b' :: (rest ++ post) := by
      simp
    rw [hEq,
      findKRun_step_open (getElem?_append_self pre '\x7b' (rest ++ post))]
    have hEq2 : pre ++ '\x7b' :: (rest ++ post) =
        (pre ++ ['\x7b']) ++ (rest ++ post) := by
      simp
    have hlen : pre.length + 1 = (pre ++ ['\x7b']).length := by simp
    rw [hEq2, hlen, ih (pre ++ ['\x7b']) post,
      show (pre ++ ['\x7b']).length + rest.length =
          pre.length + ('\x7b' :: rest).length by
        simp only [List.length_append, List.length_cons, List.length_nil]
        omega]
  | @cls dd dd' rest _ ih =>
    intro pre post
    have hEq : pre ++ (('\x7d' :: rest) ++ post) =
        pre ++ '\x7d' :: (rest ++ post) := by
      simp
    rw [hEq,
      findKRun_step_close (getElem?_append_self pre '\x7d' (rest ++ post))]
    have hEq2 : pre ++ '\x7d' :: (rest ++ post) =
        (pre ++ ['\x7d']) ++ (rest ++ post) := by
      simp
    have hlen : pre.length + 1 = (pre ++ ['\x7d']).length := by simp
    rw [hEq2, hlen, ih (pre ++ ['\x7d']) post,
      show (pre ++ ['\x7d']).length + rest.length =
          pre.length + ('\x7d' :: rest).length by
        simp only [List.length_append, List.length_cons, List.length_nil]
        omega]
  | @strTok body dd dd' rest hesc hmiss _ ih =>
    intro pre post
    have hEq : pre ++ (('"' :: (body ++ '"' :: rest)) ++ post) =
        pre ++ '"' :: (body ++ '"' :: (rest ++ post)) := by
      simp
    rw [hEq,
      findKRun_step_str
        (getElem?_append_self pre '"' (body ++ '"' :: (rest ++ post)))
        (scanString_quoted hesc) hmiss]
    have hEq2 : pre ++ '"' :: (body ++ '"' :: (rest ++ post)) =
        (pre ++ '"' :: (body ++ ['"'])) ++ (rest ++ post) := by
      simp
    have hlen3 : pre.length + 1 + body.length + 1 =
        (pre ++ '"' :: (body ++ ['"'])).length := by
      simp only [List.length_append, List.length_cons, List.length_nil]
      omega
    rw [hEq2, hlen3, ih (pre ++ '"' :: (body ++ ['"'])) post,
      show (pre ++ '"' :: (body ++ ['"'])).length + rest.length =
          pre.length + ('"' :: (body ++ '"' :: rest)).length by
        simp only [List.length_append, List.length_cons, List.length_nil]
        omega]

/-- Commitment: after a commit-free scan of `pre` ending at depth 1, the
loop commits to the quoted key that follows and applies the colon/value
check there. -/
theorem findKRun_hit {key pre rest : Str} (hesc : EscOk key)
    (hkw : KWalk key 0 pre 1) :
    findKRun (pre ++ ('"' :: (key ++ '"' :: rest))) key 0 0 =
      commitAt (pre ++ ('"' :: (key ++ '"' :: rest))) pre.length
        (pre.length + 1 + key.length) := by
  have hsim := kwalk_sim hkw [] ('"' :: (key ++ '"' :: rest))
  simp only [List.nil_append, List.length_nil, Nat.zero_add] at hsim
  rw [hsim]
  exact findKRun_step_hit (getElem?_append_self pre '"' (key ++ '"' :: rest))
    (scanString_quoted hesc) rfl

/-- A commit-free scan of the whole document yields KeyNotFound. -/
theorem findKRun_notFound {key contents : Str} {d' : Int}
    (hkw : KWalk key 0 contents d') :
    findKRun contents key 0 0 = .error .keyNotFound := by
  have hsim := kwalk_sim hkw [] []
  simp only [List.nil_append, List.append_nil, List.length_nil,
    Nat.zero_add] at hsim
  rw [hsim]
  exact findKRun_exit (Nat.le_refl _)

/-- Claim C4 (amended): over the whole document, `findKeyInRange` commits to
the *first* string literal scanned at brace depth exactly 1 whose raw
contents equal the key — whether that literal stands in key or in value
position.  At that point it returns the literal's position together with the
first non-whitespace position after the colon exactly when a colon (after
whitespace) and a value follow, and fails with MissingColon / MissingValue
otherwise; when the whole document scans without such a literal it fails
with KeyNotFound. -/
theorem findKeyInRange_first_match :
    (∀ (key pre rest : Str), EscOk key → KWalk key 0 pre 1 →
      findKeyInRange (pre ++ ('"' :: (key ++ '"' :: rest))) 0
          (((pre ++ ('"' :: (key ++ '"' :: rest))).length : Int) - 1) key =
        commitAt (pre ++ ('"' :: (key ++ '"' :: rest))) pre.length
          (pre.length + 1 + key.length)) ∧
    (∀ (key contents : Str) (d' : Int), KWalk key 0 contents d' →
      findKeyInRange contents 0 ((contents.length : Int) - 1) key =
        .error .keyNotFound) := by
  constructor
  · intro key pre rest hesc hkw
    rw [findKeyInRange_eq_findKRun]
    exact findKRun_hit hesc hkw
  · intro key contents d' hkw
    rw [findKeyInRange_eq_findKRun]
    exact findKRun_notFound hkw

/-- Counterexample for C4 as stated: in the well-formed document
`\x7b"a":"permissions","permissions":\x7b\x7d\x7d` the key
`permissions` is properly present at depth 1 (quoted literal at 19, colon
at 32, object value at 33), yet the scan fails with MissingColon because it
commits to the depth-1 *value* string at position 5; with that value
changed to `"x"` the structurally identical document succeeds. -/
theorem findKey_valueString_counterexample :
    (occursAt ('"' :: (str "permissions" ++ ['"']))
        (str "\x7b\"a\":\"permissions\",\"permissions\":\x7b\x7d\x7d") 19 ∧
      (str "\x7b\"a\":\"permissions\",\"permissions\":\x7b\x7d\x7d")[32]? =
        some ':' ∧
      (str "\x7b\"a\":\"permissions\",\"permissions\":\x7b\x7d\x7d")[33]? =
        some '\x7b') ∧
    findKeyInRange
        (str "\x7b\"a\":\"permissions\",\"permissions\":\x7b\x7d\x7d") 0
        (((str "\x7b\"a\":\"permissions\",\"permissions\":\x7b\x7d\x7d").length :
          Int) - 1) (str "permissions") = .error .missingColon ∧
    findKeyInRange (str "\x7b\"a\":\"x\",\"permissions\":\x7b\x7d\x7d") 0
        (((str "\x7b\"a\":\"x\",\"permissions\":\x7b\x7d\x7d").length :
          Int) - 1) (str "permissions") = .ok (9, 23) := by
  refine ⟨⟨by decide, by decide, by decide⟩, by decide, by decide⟩

/-- Witness for C4: the hit half at `\x7b"permissions": \x7b\x7d\x7d`
(committing at position 1, value at 16) and the KeyNotFound half at
`\x7b\x7d`. -/
theorem findKeyInRange_first_match_witness :
    (findKeyInRange
        (['\x7b'] ++ ('"' :: (str "permissions" ++ '"' :: str ": \x7b\x7d\x7d")))
        0
        (((['\x7b'] ++
            ('"' :: (str "permissions" ++ '"' :: str ": \x7b\x7d\x7d"))).length :
          Int) - 1) (str "permissions") = .ok (1, 16)) ∧
    (findKeyInRange ['\x7b', '\x7d'] 0
        ((['\x7b', '\x7d'].length : Int) - 1) (str "permissions") =
      .error .keyNotFound) := by
  constructor
  · have h := findKeyInRange_first_match.1 (str "permissions") ['\x7b']
      (str ": \x7b\x7d\x7d") (escOk_of_forall (by decide))
      (by
        rw [show (1 : Int) = 0 + 1 from by norm_num]
        exact KWalk.opn KWalk.nil)
    rw [h]
    decide
  · exact findKeyInRange_first_match.2 (str "permissions") ['\x7b', '\x7d']
      (0 + 1 - 1) (KWalk.opn (KWalk.cls KWalk.nil))

/-! ### Claim C1: idempotence of the splice -/

/-- Counterexample for C1 as stated: on the one-line host
`\x7b"permissions": \x7b\x7d\x7d` the first application of the splice
succeeds, but the structural strategy captures the text before the key on
its line — here the single character `\x7b` — as the "indent" of the
spliced block, so the output is not a fixed point: the second application
fails (the brace-count of the output never returns to zero), and in
particular differs from the first. -/
theorem splice_not_idempotent_counterexample :
    (replacePermissionsBlock (str "\x7b\"permissions\": \x7b\x7d\x7d")
        ⟨[], [], [], []⟩).isOk = true ∧
    (replacePermissionsBlock (str "\x7b\"permissions\": \x7b\x7d\x7d")
        ⟨[], [], [], []⟩).bind
      (fun y => replacePermissionsBlock y ⟨[], [], [], []⟩) ≠
      replacePermissionsBlock (str "\x7b\"permissions\": \x7b\x7d\x7d")
        ⟨[], [], [], []⟩ := by
  set_option maxRecDepth 4096 in
  refine ⟨by decide, by decide⟩

/-- Dispatch of `replacePermissionsBlock` when the start marker is absent. -/
theorem replacePermissionsBlock_noStart {contents : Str}
    {p : ClaudePermissions}
    (hs : stringsIndex contents startMarker = none) :
    replacePermissionsBlock contents p = replacePermissionsJSON contents p := by
  unfold replacePermissionsBlock
  rw [hs]

/-- Texts of the exact shape the marker strategy produces are fixed points
of the splice. -/
theorem replaceWithMarkers_fixed_point {p : ClaudePermissions}
    {pre post indent block y : Str}
    (hind : indent.all isGoSpace = true)
    (hb : block =
      List.intercalate ['\n'] ((permLines p).map (fun line => indent ++ line)))
    (hy : y = pre ++ startMarker ++ '\n' ::
      (block ++ '\n' :: indent ++ endMarker) ++ post)
    (hs : stringsIndex y startMarker = some pre.length)
    (he : stringsIndex y endMarker = some (pre.length + startMarker.length +
      1 + block.length + 1 + indent.length))
    (hli : lineIndentForPos y pre.length = indent) :
    replacePermissionsBlock y p = .ok y := by
  have h27 : 0 < startMarker.length := by decide
  rw [replacePermissionsBlock_markers hs he (by omega), replaceWithMarkers_eq]
  rw [replaceBlockWithLines_ok _ _ (by rw [lineIndent_eq, hli, if_pos hind])]
  rw [← hb]
  have htake : y.take pre.length = pre := by
    rw [hy, show pre ++ startMarker ++ '\n' ::
      (block ++ '\n' :: indent ++ endMarker) ++ post =
      pre ++ (startMarker ++ '\n' ::
      (block ++ '\n' :: indent ++ endMarker) ++ post) from by simp]
    exact List.take_left _ _
  have hdrop : y.drop (pre.length + startMarker.length + 1 + block.length +
      1 + indent.length + endMarker.length) = post := by
    rw [hy, show pre ++ startMarker ++ '\n' ::
        (block ++ '\n' :: indent ++ endMarker) ++ post =
        (pre ++ startMarker ++ '\n' :: (block ++ '\n' :: indent ++ endMarker))
          ++ post from by simp]
    exact List.drop_left' (by
      simp only [List.length_append, List.length_cons]
      omega)
  rw [htake, hdrop, hy]

/-- Replacing every newline of `s` by a newline followed by `indent`: the
effect of `indentMultilineValue`. -/
def insNl (indent : Str) (s : Str) : Str :=
  s.flatMap (fun c => if c = '\n' then '\n' :: indent else [c])

theorem insNl_cons (indent : Str) (c : Char) (l : Str) :
    insNl indent (c :: l) =
      (if c = '\n' then '\n' :: indent else [c]) ++ insNl indent l := by
  simp [insNl]

theorem insNl_append (indent a b : Str) :
    insNl indent (a ++ b) = insNl indent a ++ insNl indent b := by
  simp [insNl]

theorem insNl_no_nl {l : Str} (h : '\n' ∉ l) (indent : Str) :
    insNl indent l = l := by
  induction l with
  | nil => rfl
  | cons c rest ih =>
    have h1 : ¬ c = '\n' := by
      rintro rfl
      exact h (List.mem_cons_self _ _)
    have h2 : '\n' ∉ rest := fun hm => h (List.mem_cons_of_mem _ hm)
    rw [insNl_cons, if_neg h1, ih h2]
    rfl

theorem mem_insNl {c : Char} {indent l : Str} (h : c ∈ insNl indent l) :
    c ∈ l ∨ c ∈ indent := by
  unfold insNl at h
  rw [List.mem_flatMap] at h
  obtain ⟨a, ha, hc⟩ := h
  by_cases hnl : a = '\n'
  · rw [if_pos hnl] at hc
    rcases List.mem_cons.1 hc with h | h
    · left
      rw [h, ← hnl]
      exact ha
    · right
      exact h
  · rw [if_neg hnl] at hc
    left
    rw [List.mem_singleton.1 hc]
    exact ha

theorem intercalate_single {α : Type} (sep a : List α) :
    List.intercalate sep [a] = a := by
  simp [List.intercalate]

theorem intercalate_cons₂ {α : Type} (sep a b : List α) (t : List (List α)) :
    List.intercalate sep (a :: b :: t) =
      a ++ sep ++ List.intercalate sep (b :: t) := by
  simp [List.intercalate, List.intersperse]

theorem intercalate_cons_pre {α : Type} (sep a l : List α)
    (t : List (List α)) :
    List.intercalate sep ((a ++ l) :: t) = a ++ List.intercalate sep (l :: t) := by
  cases t with
  | nil => rw [intercalate_single, intercalate_single]
  | cons b bs =>
    rw [intercalate_cons₂, intercalate_cons₂]
    simp

/-- The splice's line-wise indentation equals newline replacement. -/
theorem indentMultilineValue_eq_insNl (value indent : Str) :
    indentMultilineValue value indent = insNl indent value := by
  induction value with
  | nil => rfl
  | cons c rest ih =>
    by_cases hc : c = '\n'
    · subst hc
      unfold indentMultilineValue
      rw [splitNl_cons_nl]
      cases hs : splitNl rest with
      | nil => exact absurd hs (splitNl_ne_nil rest)
      | cons l ls =>
        show List.intercalate ['\n']
            ([] :: ((l :: ls).map (fun line => indent ++ line))) = _
        rw [insNl_cons, if_pos rfl]
        have hrest : insNl indent rest =
            List.intercalate ['\n'] (l :: ls.map (fun line => indent ++ line)) := by
          rw [← ih]
          unfold indentMultilineValue
          rw [hs]
        rw [hrest, List.map_cons, intercalate_cons₂, intercalate_cons_pre]
        simp
    · unfold indentMultilineValue
      obtain ⟨l, ls, hcons, hrest⟩ := splitNl_cons_ne hc rest
      rw [hcons]
      show List.intercalate ['\n']
          ((c :: l) :: ls.map (fun line => indent ++ line)) = _
      rw [insNl_cons, if_neg hc]
      have hr : insNl indent rest =
          List.intercalate ['\n'] (l :: ls.map (fun line => indent ++ line)) := by
        rw [← ih]
        unfold indentMultilineValue
        rw [hrest]
      rw [hr]
      cases hls : ls.map (fun line => indent ++ line) with
      | nil =>
        rw [intercalate_single, intercalate_single]
        rfl
      | cons t ts =>
        rw [intercalate_cons₂, intercalate_cons₂]
        simp

theorem escOk_append {a b : Str} (ha : EscOk a) (hb : EscOk b) :
    EscOk (a ++ b) := by
  induction ha with
  | nil => exact hb
  | chr hq hbs _ ih => exact EscOk.chr hq hbs ih
  | esc _ ih => exact EscOk.esc ih

theorem hexDigit_ok {n : Nat} (h : n ≤ 15) :
    hexDigit n ≠ '"' ∧ hexDigit n ≠ '\\' ∧ hexDigit n ≠ '\n' := by
  interval_cases n <;> exact ⟨by decide, by decide, by decide⟩

theorem jsonEscapeChar_ok (c : Char) :
    EscOk (jsonEscapeChar c) ∧ '\n' ∉ jsonEscapeChar c := by
  unfold jsonEscapeChar
  by_cases h1 : c = '"'
  · rw [if_pos h1]
    exact ⟨EscOk.esc EscOk.nil, by decide⟩
  rw [if_neg h1]
  by_cases h2 : c = '\\'
  · rw [if_pos h2]
    exact ⟨EscOk.esc EscOk.nil, by decide⟩
  rw [if_neg h2]
  by_cases h3 : c = '\n'
  · rw [if_pos h3]
    exact ⟨EscOk.esc EscOk.nil, by decide⟩
  rw [if_neg h3]
  by_cases h4 : c = '\r'
  · rw [if_pos h4]
    exact ⟨EscOk.esc EscOk.nil, by decide⟩
  rw [if_neg h4]
  by_cases h5 : c = '\t'
  · rw [if_pos h5]
    exact ⟨EscOk.esc EscOk.nil, by decide⟩
  rw [if_neg h5]
  by_cases h6 : c = '<'
  · rw [if_pos h6]
    exact ⟨EscOk.esc (escOk_of_forall (by decide)), by decide⟩
  rw [if_neg h6]
  by_cases h7 : c = '>'
  · rw [if_pos h7]
    exact ⟨EscOk.esc (escOk_of_forall (by decide)), by decide⟩
  rw [if_neg h7]
  by_cases h8 : c = '&'
  · rw [if_pos h8]
    exact ⟨EscOk.esc (escOk_of_forall (by decide)), by decide⟩
  rw [if_neg h8]
  by_cases h9 : c.toNat < 0x20
  · rw [if_pos h9]
    have hx1 := @hexDigit_ok (c.toNat / 16) (by omega)
    have hx2 := @hexDigit_ok (c.toNat % 16) (by omega)
    constructor
    · exact EscOk.esc (EscOk.chr (by decide) (by decide)
        (EscOk.chr (by decide) (by decide)
          (EscOk.chr hx1.1 hx1.2.1 (EscOk.chr hx2.1 hx2.2.1 EscOk.nil))))
    · intro hm
      rcases List.mem_append.1 hm with hm | hm
      · exact absurd hm (by decide)
      · rcases List.mem_cons.1 hm with hm | hm
        · exact hx1.2.2 hm.symm
        · rcases List.mem_cons.1 hm with hm | hm
          · exact hx2.2.2 hm.symm
          · exact absurd hm (by simp)
  rw [if_neg h9]
  by_cases h10 : c = '\u2028'
  · rw [if_pos h10]
    exact ⟨EscOk.esc (escOk_of_forall (by decide)), by decide⟩
  rw [if_neg h10]
  by_cases h11 : c = '\u2029'
  · rw [if_pos h11]
    exact ⟨EscOk.esc (escOk_of_forall (by decide)), by decide⟩
  rw [if_neg h11]
  exact ⟨EscOk.chr h1 h2 EscOk.nil,
    fun hm => h3 (List.mem_singleton.1 hm).symm⟩

theorem escOk_jsonEscape (s : Str) : EscOk (s.flatMap jsonEscapeChar) := by
  induction s with
  | nil => exact EscOk.nil
  | cons c rest ih =>
    rw [List.flatMap_cons]
    exact escOk_append (jsonEscapeChar_ok c).1 ih

theorem no_nl_jsonEscape (s : Str) : '\n' ∉ s.flatMap jsonEscapeChar := by
  intro hm
  rw [List.mem_flatMap] at hm
  obtain ⟨c, _, hc⟩ := hm
  exact (jsonEscapeChar_ok c).2 hc

theorem no_nl_jsonQuote (s : Str) : '\n' ∉ jsonQuote s := by
  unfold jsonQuote
  intro hm
  rcases List.mem_append.1 hm with hm | hm
  · rcases List.mem_cons.1 hm with hm | hm
    · exact absurd hm (by decide)
    · exact no_nl_jsonEscape s hm
  · exact absurd hm (by decide)

theorem insNl_jsonQuote (indent s : Str) :
    insNl indent (jsonQuote s) = jsonQuote s :=
  insNl_no_nl (no_nl_jsonQuote s) indent

theorem isGoSpace_not_special {c : Char} (h : isGoSpace c = true) :
    c ≠ '"' ∧ c ≠ '\x7b' ∧ c ≠ '\x7d' := by
  unfold isGoSpace at h
  simp only [Bool.or_eq_true, decide_eq_true_eq] at h
  rcases h with ((((((h | h) | h) | h) | h) | h) | h) | h <;> subst h <;>
    exact ⟨by decide, by decide, by decide⟩

/-- Neutral segments stay neutral after indent insertion. -/
theorem walk_insNl_neutral {l indent : Str}
    (hl : ∀ c ∈ l, c ≠ '"' ∧ c ≠ '\x7b' ∧ c ≠ '\x7d')
    (hind : indent.all isGoSpace = true) (d : Int) :
    Walk '\x7b' '\x7d' d (insNl indent l) d := by
  apply Walk.neutral
  intro c hc
  rcases mem_insNl hc with h | h
  · exact hl c h
  · exact isGoSpace_not_special (List.all_eq_true.1 hind c h)

theorem walk_jsonQuote (d : Int) (s : Str) :
    Walk '\x7b' '\x7d' d (jsonQuote s) d := by
  unfold jsonQuote
  exact Walk.quoted (escOk_jsonEscape s) d

theorem walk_insNl_items {indent : Str} (hind : indent.all isGoSpace = true)
    (d : Int) (x : Str) (xs : List Str) :
    Walk '\x7b' '\x7d' d
      (insNl indent (List.intercalate (str ",\n")
        ((x :: xs).map (fun x => str "    " ++ jsonQuote x)))) d := by
  induction xs generalizing x with
  | nil =>
    rw [List.map_cons, List.map_nil, intercalate_single, insNl_append,
      insNl_jsonQuote]
    exact Walk.append (walk_insNl_neutral (by decide) hind d)
      (walk_jsonQuote d x)
  | cons y ys ih =>
    have ih2 := ih y
    rw [List.map_cons] at ih2
    rw [List.map_cons, List.map_cons, intercalate_cons₂, insNl_append,
      insNl_append, insNl_append, insNl_jsonQuote]
    exact Walk.append
      (Walk.append
        (Walk.append (walk_insNl_neutral (by decide) hind d)
          (walk_jsonQuote d x))
        (walk_insNl_neutral (by decide) hind d))
      ih2

theorem walk_insNl_renderArr {indent : Str}
    (hind : indent.all isGoSpace = true) (xs : List Str) (d : Int) :
    Walk '\x7b' '\x7d' d (insNl indent (renderArr xs)) d := by
  cases xs with
  | nil =>
    rw [show renderArr [] = str "[]" from rfl,
      insNl_no_nl (by decide) indent]
    exact Walk.neutral (by decide) d
  | cons x xs =>
    rw [show renderArr (x :: xs) = str "[\n" ++
      List.intercalate (str ",\n")
        ((x :: xs).map (fun x => str "    " ++ jsonQuote x)) ++
      str "\n  ]" from rfl, insNl_append, insNl_append]
    exact Walk.append
      (Walk.append (walk_insNl_neutral (by decide) hind d)
        (walk_insNl_items hind d x xs))
      (walk_insNl_neutral (by decide) hind d)

/-- The indented marshal interior walks at constant depth. -/
theorem walk_insNl_marshalInner {indent : Str}
    (hind : indent.all isGoSpace = true) (p : ClaudePermissions) (d : Int) :
    Walk '\x7b' '\x7d' d (insNl indent (marshalInner p)) d := by
  unfold marshalInner
  simp only [insNl_append, insNl_jsonQuote]
  have n1 := @walk_insNl_neutral (str "\n  ") indent (by decide) hind d
  have n2 := @walk_insNl_neutral (str ": ") indent (by decide) hind d
  have n3 := @walk_insNl_neutral (str ",\n  ") indent (by decide) hind d
  have n4 := @walk_insNl_neutral (str "\n") indent (by decide) hind d
  have q1 := walk_jsonQuote d (str "allow")
  have q2 := walk_jsonQuote d (str "ask")
  have q3 := walk_jsonQuote d (str "deny")
  have q4 := walk_jsonQuote d (str "additionalDirectories")
  have r1 := walk_insNl_renderArr hind p.allow d
  have r2 := walk_insNl_renderArr hind p.ask d
  have r3 := walk_insNl_renderArr hind p.deny d
  have r4 := walk_insNl_renderArr hind p.additionalDirectories d
  exact ((((((((((((((((n1.append q1).append n2).append r1).append
    n3).append q2).append n2).append r2).append n3).append q3).append
    n2).append r3).append n3).append q4).append n2).append r4).append n4)

/-- Position of the matching close delimiter after a depth-preserving
walk segment. -/
theorem findMD_ok_of_walk {op cl : Char} (hopq : op ≠ '"') (hclq : cl ≠ '"')
    (hoc : op ≠ cl) {pre inner post : Str} (w : Walk op cl 1 inner 1) :
    findMatchingDelimiter (pre ++ op :: (inner ++ cl :: post))
        pre.length op cl = .ok (pre.length + 1 + inner.length) := by
  unfold findMatchingDelimiter
  rw [if_pos (getElem?_append_self pre op (inner ++ cl :: post))]
  have hrun : findMDLoop (pre ++ op :: (inner ++ cl :: post)) op cl
      ((pre ++ op :: (inner ++ cl :: post)).length + 1) pre.length 0 =
      findMDRun (pre ++ op :: (inner ++ cl :: post)) op cl pre.length 0 := rfl
  rw [hrun,
    findMDRun_step (getElem?_append_self pre op (inner ++ cl :: post))
      (by simp),
    if_neg hopq, if_pos rfl]
  have hEq2 : pre ++ op :: (inner ++ cl :: post) =
      (pre ++ [op]) ++ (inner ++ cl :: post) := by simp
  have hlen : pre.length + 1 = (pre ++ [op]).length := by simp
  rw [hEq2, hlen, show (0 : Int) + 1 = 1 from by norm_num,
    walk_sim hopq hclq hoc w (by omega) (pre ++ [op]) (cl :: post)]
  have hEq3 : (pre ++ [op]) ++ (inner ++ cl :: post) =
      ((pre ++ [op]) ++ inner) ++ cl :: post := by simp
  have hlen2 : (pre ++ [op]).length + inner.length =
      ((pre ++ [op]) ++ inner).length := by
    simp only [List.length_append, List.length_cons, List.length_nil]
  rw [hEq3, hlen2,
    findMDRun_step (getElem?_append_self ((pre ++ [op]) ++ inner) cl post)
      (by simp),
    if_neg hclq, if_neg (fun h => hoc h.symm), if_pos rfl,
    if_pos (by norm_num)]

theorem takeWhile_ws_append {ws : Str} (hws : ws.all isJsonSpace = true)
    {c : Char} (hc : isJsonSpace c = false) (post : Str) :
    (ws ++ c :: post).takeWhile isJsonSpace = ws := by
  induction ws with
  | nil =>
    rw [List.nil_append, List.takeWhile_cons, hc]
    rfl
  | cons w t ih =>
    rw [List.all_cons, Bool.and_eq_true] at hws
    rw [List.cons_append, List.takeWhile_cons, hws.1, if_pos rfl, ih hws.2]

/-- `skipSpaces` jumps over a whitespace run to the next non-space. -/
theorem skipSpacesGo_ws {pre ws : Str} {c : Char}
    (hws : ws.all isJsonSpace = true) (hc : isJsonSpace c = false)
    (post : Str) :
    skipSpacesGo (pre ++ (ws ++ c :: post)) pre.length =
      pre.length + ws.length := by
  unfold skipSpacesGo
  rw [if_neg (by
      simp only [List.length_append, List.length_cons]
      omega),
    List.drop_left, takeWhile_ws_append hws hc post]

/-- Texts of the exact shape the structural strategy produces are fixed
points of that strategy. -/
theorem replaceJSON_fixed_point {p : ClaudePermissions}
    {pre ws1 ws2 indent obj post y : Str}
    (hkw : KWalk (str "permissions") 0 pre 1)
    (hws1 : ws1.all isJsonSpace = true) (hws2 : ws2.all isJsonSpace = true)
    (hind : indent.all isGoSpace = true)
    (hobj : obj = indentMultilineValue (marshalIndentPermissions p) indent)
    (hy : y = pre ++ '"' :: (str "permissions" ++ '"' ::
      (ws1 ++ ':' :: (ws2 ++ (obj ++ post)))))
    (hli : lineIndentForPos y pre.length = indent) :
    replacePermissionsJSON y p = .ok y := by
  have h11 : (str "permissions").length = 11 := rfl
  have hobj2 : obj = '\x7b' :: (insNl indent (marshalInner p) ++ ['\x7d']) := by
    rw [hobj, indentMultilineValue_eq_insNl]
    unfold marshalIndentPermissions
    have hrb : insNl indent ['\x7d'] = ['\x7d'] :=
      insNl_no_nl (by decide) indent
    rw [insNl_append, insNl_cons, if_neg (by decide), hrb]
    simp
  have hyE1 : y = (pre ++ '"' :: (str "permissions" ++ ['"'])) ++
      (ws1 ++ ':' :: (ws2 ++ (obj ++ post))) := by
    rw [hy]
    simp
  have hyE3 : y = (((pre ++ '"' :: (str "permissions" ++ ['"'])) ++ ws1) ++
      [':']) ++ (ws2 ++ '\x7b' :: (insNl indent (marshalInner p) ++
        '\x7d' :: post)) := by
    rw [hy, hobj2]
    simp
  have hyE4 : y = ((((pre ++ '"' :: (str "permissions" ++ ['"'])) ++ ws1) ++
      [':']) ++ ws2) ++ '\x7b' :: (insNl indent (marshalInner p) ++
        '\x7d' :: post) := by
    rw [hy, hobj2]
    simp
  have hLA : (pre ++ '"' :: (str "permissions" ++ ['"'])).length =
      pre.length + 13 := by
    simp only [List.length_append, List.length_cons, List.length_nil, h11]
  have hfk : findKeyInRange y 0 ((y.length : Int) - 1) (str "permissions") =
      commitAt y pre.length (pre.length + 1 + (str "permissions").length) := by
    rw [findKeyInRange_eq_findKRun, hy]
    exact findKRun_hit (escOk_of_forall (by decide)) hkw
  have hskip1 : skipSpacesGo y (pre.length + 13) =
      pre.length + 13 + ws1.length := by
    rw [hyE1, show pre.length + 13 =
      (pre ++ '"' :: (str "permissions" ++ ['"'])).length from hLA.symm]
    exact skipSpacesGo_ws hws1 (by decide) _
  have hcolon : y[pre.length + 13 + ws1.length]? = some ':' := by
    have hyE2 : y = ((pre ++ '"' :: (str "permissions" ++ ['"'])) ++ ws1) ++
        ':' :: (ws2 ++ (obj ++ post)) := by
      rw [hy]
      simp
    rw [hyE2, show pre.length + 13 + ws1.length =
      ((pre ++ '"' :: (str "permissions" ++ ['"'])) ++ ws1).length from by
        simp only [List.length_append, List.length_cons, List.length_nil,
          h11] <;> omega]
    exact getElem?_append_self _ ':' _
  have hj1lt : pre.length + 13 + ws1.length < y.length := by
    by_contra hcon
    rw [List.getElem?_eq_none (by omega)] at hcolon
    exact Option.noConfusion hcolon
  have hskip2 : skipSpacesGo y (pre.length + 13 + ws1.length + 1) =
      pre.length + 13 + ws1.length + 1 + ws2.length := by
    rw [hyE3, show pre.length + 13 + ws1.length + 1 =
      ((((pre ++ '"' :: (str "permissions" ++ ['"'])) ++ ws1) ++
        [':'])).length from by
        simp only [List.length_append, List.length_cons, List.length_nil,
          h11] <;> omega]
    exact skipSpacesGo_ws hws2 (by decide) _
  have hbrace : y[pre.length + 13 + ws1.length + 1 + ws2.length]? =
      some '\x7b' := by
    rw [hyE4, show pre.length + 13 + ws1.length + 1 + ws2.length =
      (((((pre ++ '"' :: (str "permissions" ++ ['"'])) ++ ws1) ++
        [':']) ++ ws2)).length from by
        simp only [List.length_append, List.length_cons, List.length_nil,
          h11] <;> omega]
    exact getElem?_append_self _ '\x7b' _
  have hoslt : pre.length + 13 + ws1.length + 1 + ws2.length < y.length := by
    by_contra hcon
    rw [List.getElem?_eq_none (by omega)] at hbrace
    exact Option.noConfusion hbrace
  have hcommit : commitAt y pre.length
      (pre.length + 1 + (str "permissions").length) =
      .ok (pre.length, pre.length + 13 + ws1.length + 1 + ws2.length) := by
    simp only [commitAt]
    rw [show pre.length + 1 + (str "permissions").length + 1 =
      pre.length + 13 from by simp only [h11] <;> omega]
    rw [hskip1, hcolon]
    rw [if_neg (fun hcon => by
      rcases hcon with hcon | hcon
      · omega
      · exact hcon rfl)]
    rw [hskip2]
    rw [if_neg (by omega)]
  have hfk2 : findKeyInRange y 0 ((y.length : Int) - 1) (str "permissions") =
      .ok (pre.length, pre.length + 13 + ws1.length + 1 + ws2.length) := by
    rw [hfk, hcommit]
  have hmd : findMatchingBrace y
      (pre.length + 13 + ws1.length + 1 + ws2.length) =
      .ok (pre.length + 13 + ws1.length + 1 + ws2.length + 1 +
        (insNl indent (marshalInner p)).length) := by
    show findMatchingDelimiter y
      (pre.length + 13 + ws1.length + 1 + ws2.length) '\x7b' '\x7d' = _
    rw [hyE4, show pre.length + 13 + ws1.length + 1 + ws2.length =
      (((((pre ++ '"' :: (str "permissions" ++ ['"'])) ++ ws1) ++
        [':']) ++ ws2)).length from by
        simp only [List.length_append, List.length_cons, List.length_nil,
          h11] <;> omega]
    exact findMD_ok_of_walk (by decide) (by decide) (by decide)
      (walk_insNl_marshalInner hind p 1)
  have hfok : findObjectForKey y (str "permissions") =
      .ok (pre.length, pre.length + 13 + ws1.length + 1 + ws2.length,
        pre.length + 13 + ws1.length + 1 + ws2.length + 1 +
          (insNl indent (marshalInner p)).length) := by
    unfold findObjectForKey
    simp only [hfk2, hbrace, hmd]
    simp
  rw [replacePermissionsJSON_ok hfok, hli, ← hobj]
  have htake : y.take (pre.length + 13 + ws1.length + 1 + ws2.length) =
      (((pre ++ '"' :: (str "permissions" ++ ['"'])) ++ ws1) ++ [':']) ++
        ws2 := by
    rw [hyE4, show pre.length + 13 + ws1.length + 1 + ws2.length =
      (((((pre ++ '"' :: (str "permissions" ++ ['"'])) ++ ws1) ++
        [':']) ++ ws2)).length from by
        simp only [List.length_append, List.length_cons, List.length_nil,
          h11] <;> omega]
    exact List.take_left _ _
  have hdrop : y.drop (pre.length + 13 + ws1.length + 1 + ws2.length + 1 +
      (insNl indent (marshalInner p)).length + 1) = post := by
    have hyE5 : y = (((((pre ++ '"' :: (str "permissions" ++ ['"'])) ++
        ws1) ++ [':']) ++ ws2) ++ '\x7b' ::
        (insNl indent (marshalInner p) ++ ['\x7d'])) ++ post := by
      rw [hy, hobj2]
      simp
    rw [hyE5]
    exact List.drop_left' (by
      simp only [List.length_append, List.length_cons, List.length_nil,
        h11] <;> omega)
  rw [htake, hdrop]
  refine congrArg Except.ok ?_
  rw [hy, hobj2]
  simp

/-- Claim C1 (amended): the splice is idempotent on well-formed spliced
text, strategy by strategy, but not unconditionally (see the
counterexample).  (1) Marker strategy: a host whose first start/end marker
occurrences delimit an exactly spliced block (start marker first, block
lines prefixed with the whitespace indent captured from the text before the
start marker on its line) is a fixed point.  (2) Structural strategy: a
host with no start marker in which a commit-free prefix at brace depth 1
is followed by the quoted `permissions` key, a colon and the marshalled
object indented with the whitespace line prefix of the key is a fixed
point. -/
theorem splice_idempotent_on_spliced_shapes :
    (∀ (p : ClaudePermissions) (pre post indent block y : Str),
      indent.all isGoSpace = true →
      block = List.intercalate ['\n']
        ((permLines p).map (fun line => indent ++ line)) →
      y = pre ++ startMarker ++ '\n' ::
        (block ++ '\n' :: indent ++ endMarker) ++ post →
      stringsIndex y startMarker = some pre.length →
      stringsIndex y endMarker = some (pre.length + startMarker.length +
        1 + block.length + 1 + indent.length) →
      lineIndentForPos y pre.length = indent →
      replacePermissionsBlock y p = .ok y) ∧
    (∀ (p : ClaudePermissions) (pre ws1 ws2 indent obj post y : Str),
      KWalk (str "permissions") 0 pre 1 →
      ws1.all isJsonSpace = true → ws2.all isJsonSpace = true →
      indent.all isGoSpace = true →
      obj = indentMultilineValue (marshalIndentPermissions p) indent →
      y = pre ++ '"' :: (str "permissions" ++ '"' ::
        (ws1 ++ ':' :: (ws2 ++ (obj ++ post)))) →
      lineIndentForPos y pre.length = indent →
      stringsIndex y startMarker = none →
      replacePermissionsBlock y p = .ok y) := by
  constructor
  · intro p pre post indent block y hind hb hy hs he hli
    exact replaceWithMarkers_fixed_point hind hb hy hs he hli
  · intro p pre ws1 ws2 indent obj post y hkw hws1 hws2 hind hobj hy hli hnone
    rw [replacePermissionsBlock_noStart hnone]
    exact replaceJSON_fixed_point hkw hws1 hws2 hind hobj hy hli

/-- Witness for C1: both fixed-point shapes at the empty permissions value —
a bare marker block with empty indent, and a two-line structural host
`\x7b`, newline, `"permissions": ` followed by the marshalled object. -/
theorem splice_idempotent_on_spliced_shapes_witness :
    (replacePermissionsBlock
        ([] ++ startMarker ++ '\n' ::
          (List.intercalate ['\n'] ((permLines ⟨[], [], [], []⟩).map
            (fun line => [] ++ line)) ++ '\n' :: [] ++ endMarker) ++ [])
        ⟨[], [], [], []⟩ =
      .ok ([] ++ startMarker ++ '\n' ::
          (List.intercalate ['\n'] ((permLines ⟨[], [], [], []⟩).map
            (fun line => [] ++ line)) ++ '\n' :: [] ++ endMarker) ++ [])) ∧
    (replacePermissionsBlock
        (['\x7b', '\n'] ++ '"' :: (str "permissions" ++ '"' ::
          ([] ++ ':' :: ([' '] ++
            (indentMultilineValue
              (marshalIndentPermissions ⟨[], [], [], []⟩) [] ++ [])))))
        ⟨[], [], [], []⟩ =
      .ok (['\x7b', '\n'] ++ '"' :: (str "permissions" ++ '"' ::
          ([] ++ ':' :: ([' '] ++
            (indentMultilineValue
              (marshalIndentPermissions ⟨[], [], [], []⟩) [] ++ [])))))) := by
  set_option maxRecDepth 8192 in
  constructor
  · exact splice_idempotent_on_spliced_shapes.1 ⟨[], [], [], []⟩ [] [] [] _ _
      (by decide) rfl rfl (by decide) (by decide) (by decide)
  · exact splice_idempotent_on_spliced_shapes.2 ⟨[], [], [], []⟩
      ['\x7b', '\n'] [] [' '] [] _ [] _
      (by
        rw [show (1 : Int) = 0 + 1 from by norm_num]
        exact KWalk.opn (KWalk.chr (by decide) (by decide) (by decide)
          KWalk.nil))
      (by decide) (by decide) (by decide) rfl rfl (by decide) (by decide)

end PermGen
